import Mathlib

/-!
# Verification of the BIFT numerical core (bioxtasraw/BIFT.py)

A shallow embedding, over `ℚ`, of the BIFT engine of `src/bioxtasraw/BIFT.py`:
the sphere prior generator `distDistribution_Sphere`, the transform-matrix
builder `createTransMatrix`, the inner solver `bift` (iterative relaxed update
with adaptive backtracking of the relaxation factor `omega`), the wrapper
`C_seeksol`, the evidence functional `calcPosterior` with its shifted-identity
matrix `A` built from `shiftLeft`/`shiftRight`, the result assembly shared by
`SingleSolve` and `doBift`, and the cancellable grid search of `doBift`.

Conventions of the embedding:
* floating-point numbers are modelled as exact rationals;
* the transcendental library routines (`math.sin`, `np.sqrt`, `np.log`,
  `np.exp`, `np.pi`) have no exact rational counterpart, so every definition
  that needs one is parametrised by an explicit function argument
  (`sinA`, `sqrtA`, `logA`, `expA`) or value (`piA`) standing for it; the
  claims checked here are independent of the values those routines return;
* numpy row vectors of shape `(1, N)` are modelled as functions `ℕ → ℚ`
  (entries at indices `≥ N` are irrelevant and never read);
* the `while` loops of the solver are modelled by fuel-indexed recursion with
  lemmas showing the fuel never runs out, so the functions agree with the
  loops they embed.
-/

namespace BIFT

/-- Left-to-right accumulation `f 0 + f 1 + ⋯ + f (n-1)`, matching the
accumulation order of the source's `for` loops over `range(n)`. -/
def sumR : ℕ → (ℕ → ℚ) → ℚ
  | 0, _ => 0
  | n + 1, f => sumR n f + f n

/-- `np.linspace(a, b, n)`: `n` evenly spaced points from `a` to `b`
inclusive, step `(b - a)/(n - 1)`. -/
def linspace (a b : ℚ) (n : ℕ) : List ℚ :=
  (List.range n).map (fun k : ℕ => a + (b - a) * (k : ℚ) / ((n : ℚ) - 1))

/-- Python slice `l[a:b]` (clamping semantics). -/
def pySlice (l : List ℚ) (a b : ℕ) : List ℚ :=
  (l.take b).drop a

/-- `max` of a numpy array (nonempty in all uses; `0` for the empty list). -/
def npmax : List ℚ → ℚ
  | [] => 0
  | x :: xs => xs.foldl max x

/-- `max` over the first `n` entries of a vector. -/
def npmaxF (n : ℕ) (f : ℕ → ℚ) : ℚ :=
  npmax ((List.range n).map f)

/-- `np.trapz(y, x)`: trapezoidal integration of `y` against abscissae `x`. -/
def trapz (y x : List ℚ) : ℚ :=
  sumR (y.length - 1)
    (fun i => (x.getD (i + 1) 0 - x.getD i 0) * (y.getD i 0 + y.getD (i + 1) 0) / 2)

/-!
## Sphere prior: `distDistribution_Sphere` (BIFT.py lines 566–611)
-/

/-- The raw (pre-floor) sphere `P(r)`:
`P_k = r_k² · (1 − 1.5·(r_k/dmax) + 0.5·(r_k/dmax)³) · norm` with
`norm = scale_factor/psum · Δr`, `psum = dmax³/24`, over
`r = linspace(0, dmax, N)`. -/
def spherePraw (N : ℕ) (scale_factor dmax : ℚ) : List ℚ :=
  let R_axis_vector := linspace 0 dmax N
  let delta_R := R_axis_vector.getD 1 0
  let psum := dmax ^ 3 / 24
  let strange_norm_factor := scale_factor / psum * delta_R
  R_axis_vector.map
    (fun r => r ^ 2 * (1 - 3/2 * (r / dmax) + 1/2 * (r / dmax) ^ 3) * strange_norm_factor)

/-- The floor threshold `avm = pmin * max(P)` with `pmin = 0.005`, computed on
the pre-floor distribution. -/
def sphereAvm (N : ℕ) (scale_factor dmax : ℚ) : ℚ :=
  1/200 * npmax (spherePraw N scale_factor dmax)

/-- The floored distribution `P ← P·(P > avm) + avm·(P ≤ avm)`:
every bin at most `avm` is replaced by `avm`. -/
def sphereFloored (N : ℕ) (scale_factor dmax : ℚ) : List ℚ :=
  let avm := sphereAvm N scale_factor dmax
  (spherePraw N scale_factor dmax).map (fun p => if p > avm then p else avm)

/-- `distDistribution_Sphere`: raw sphere `P(r)`, then the floor and the
rescale `P ← P·sum1/sum2` with `sum1 = Σ P` before and `sum2 = Σ P` after
the floor.  Returns the final `P` and the `r` grid. -/
def distDistribution_Sphere (N : ℕ) (scale_factor dmax : ℚ) : List ℚ × List ℚ :=
  let sum1 := (spherePraw N scale_factor dmax).sum
  let sum2 := (sphereFloored N scale_factor dmax).sum
  ((sphereFloored N scale_factor dmax).map (fun p => p * sum1 / sum2),
    linspace 0 dmax N)

/-!
## Transform matrix: `createTransMatrix` (BIFT.py lines 661–688)
-/

/-- `createTransMatrix(q, r)`: `T[i,j] = sin(q_i·r_j)/(q_i·r_j)`, with the
entry set to `1` when `q_i·r_j = 0` or the quotient is NaN (`chk != chk`);
`sinA` stands for `math.sin`. -/
def createTransMatrix (sinA : ℚ → ℚ) (q r : List ℚ) : ℕ → ℕ → ℚ := fun i j =>
  let qr := q.getD i 0 * r.getD j 0
  if qr ≠ 0 then
    let chk := sinA qr / qr
    if chk ≠ chk then 1 else chk
  else 1

/-- `makePriorDistDistribution`: dispatches to the sphere prior with
`scale_factor = E.i[0]` (the first entry of the *unwindowed* intensity). -/
def makePriorDistDistribution (i_full : List ℚ) (N : ℕ) (dmax : ℚ) : List ℚ :=
  (distDistribution_Sphere N (i_full.getD 0 0) dmax).1

/-!
## Inner solver: `bift` (BIFT.py lines 779–888)
-/

/-- Fixed inputs of one inner solve: the dimensions and precomputed tensors
passed to `bift` by `C_seeksol`, plus the stand-in `sqrtA` for
`pow(·, 0.5)`. -/
structure BiftCtx where
  N : ℕ
  alpha : ℚ
  B : ℕ → ℕ → ℚ
  Bmat : ℕ → ℕ → ℚ
  sum_dia : ℕ → ℚ
  bkk : ℕ → ℚ
  bkkmax : ℚ
  sqrtA : ℚ → ℚ

/-- Mutable state of the solver loop.  The numpy arrays of shape `(1, N)`
are modelled as length-`N` lists. -/
structure BiftState where
  P : List ℚ
  m : List ℚ
  dP : List ℚ
  Pold : List ℚ
  omega : ℚ
  dotsp : ℚ
  s : ℚ
  ite : ℕ

/-- Result of the gradient block (lines 829–847 and 861–879): the smoothness
scalar `s`, the squared gradient norms `wgrads`, `wgradc`, and the raw dot
product `dotsp`. -/
structure Grad where
  s : ℚ
  wgrads : ℚ
  wgradc : ℚ
  dotsp : ℚ

/-- The gradient block: for `k < N`,
`s -= (P_k − m_k)²`, `gradsi = −2(P_k − m_k)`, `wgrads += gradsi²`,
`gradci = Σ_j 2·P_j·B[j,k] − 2·sum_dia_k`, `wgradc += gradci²`,
`dotsp += gradci·gradsi`. -/
def gradBlock (ctx : BiftCtx) (P m : List ℚ) : Grad :=
  { s := sumR ctx.N (fun k => -((P.getD k 0 - m.getD k 0) ^ 2))
    wgrads := sumR ctx.N (fun k => (-2 * (P.getD k 0 - m.getD k 0)) ^ 2)
    wgradc := sumR ctx.N (fun k =>
      (sumR ctx.N (fun j => 2 * (P.getD j 0 * ctx.B j k))
        - 2 * ctx.sum_dia k) ^ 2)
    dotsp := sumR ctx.N (fun k =>
      (sumR ctx.N (fun j => 2 * (P.getD j 0 * ctx.B j k))
        - 2 * ctx.sum_dia k) * (-2 * (P.getD k 0 - m.getD k 0))) }

/-- Guard of the backtracking loop (line 851):
`dotsp < 0 and alpha < bkkmax and ite > 1 and omega > omegamin`. -/
def btGuard (ctx : BiftCtx) (ite : ℕ) (omega : ℚ) (g : Grad) : Prop :=
  g.dotsp < 0 ∧ ctx.alpha < ctx.bkkmax ∧ 1 < ite ∧ 1/1000 < omega

instance (ctx : BiftCtx) (ite : ℕ) (omega : ℚ) (g : Grad) :
    Decidable (btGuard ctx ite omega g) := by
  unfold btGuard; infer_instance

/-- Backtracking loop (lines 849–879), fuel-indexed: while the guard holds,
`omega ← omega/2`, `P_k ← (1−omega)·Pold_k + omega·dP_k`, and the gradient
block is recomputed.  `btRun_exits` below shows the fuel never runs out in
any run started by `C_seeksol`. -/
def btRun (ctx : BiftCtx) (ite : ℕ) (Pold dP m : List ℚ) :
    ℕ → ℚ → List ℚ → Grad → ℚ × List ℚ × Grad
  | 0, omega, P, g => (omega, P, g)
  | fuel + 1, omega, P, g =>
    if btGuard ctx ite omega g then
      let omega' := omega / 2
      let P' := (List.range ctx.N).map
        (fun k => (1 - omega') * Pold.getD k 0 + omega' * dP.getD k 0)
      btRun ctx ite Pold dP m fuel omega' P' (gradBlock ctx P' m)
    else (omega, P, g)

/-- One outer iteration of the solver loop body (lines 792–886). -/
def outerStep (ctx : BiftCtx) (st : BiftState) : BiftState :=
  let upd :=
    if st.ite ≠ 0 then
      let m' := (List.range ctx.N).map (fun k =>
        if k = 0 then st.P.getD 1 0 / 2
        else if k = ctx.N - 1 then st.P.getD (ctx.N - 2) 0 / 2
        else (st.P.getD (k - 1) 0 + st.P.getD (k + 1) 0) / 2)
      let Psumi := (List.range ctx.N).map
        (fun j => sumR ctx.N (fun k => st.P.getD k 0 * ctx.Bmat k j))
      let dP' := (List.range ctx.N).map (fun k =>
        (m'.getD k 0 * ctx.alpha + ctx.sum_dia k - Psumi.getD k 0)
          / (ctx.bkk k + ctx.alpha))
      let Pold' := st.P
      let P' := (List.range ctx.N).map (fun k =>
        (1 - st.omega) * st.P.getD k 0 + st.omega * dP'.getD k 0)
      (m', dP', Pold', P')
    else (st.m, st.dP, st.Pold, st.P)
  let ite' := st.ite + 1
  let g := gradBlock ctx upd.2.2.2 upd.1
  let bt := btRun ctx ite' upd.2.2.1 upd.2.1 upd.1 12 st.omega upd.2.2.2 g
  let dotsp' :=
    if bt.2.2.wgrads = 0 ∨ bt.2.2.wgradc = 0 then 1
    else bt.2.2.dotsp / (ctx.sqrtA bt.2.2.wgrads * ctx.sqrtA bt.2.2.wgradc)
  { P := bt.2.1, m := upd.1, dP := upd.2.1, Pold := upd.2.2.1
    omega := bt.1, dotsp := dotsp', s := bt.2.2.s, ite := ite' }

/-- Guard of the outer `while` loop (line 792):
`(ite < maxit and omega > omegamin and abs(1-dotsp) > dotsptol) or ite < minit`
with `maxit = 1000`, `minit = 10`, `omegamin = dotsptol = 0.001`. -/
def loopGuard (st : BiftState) : Prop :=
  (st.ite < 1000 ∧ 1/1000 < st.omega ∧ 1/1000 < |1 - st.dotsp|) ∨ st.ite < 10

instance (st : BiftState) : Decidable (loopGuard st) := by
  unfold loopGuard; infer_instance

/-- The outer loop, fuel-indexed; `runOuter_exits` below shows fuel `1000`
always suffices from `ite = 0`. -/
def runOuter (ctx : BiftCtx) : ℕ → BiftState → BiftState
  | 0, st => st
  | fuel + 1, st => if loopGuard st then runOuter ctx fuel (outerStep ctx st) else st

/-- The inner solver `bift`: run the outer loop to completion. -/
def bift (ctx : BiftCtx) (st : BiftState) : BiftState :=
  runOuter ctx 1000 st

/-- The initial solver state as set up by `C_seeksol` (lines 242–284):
`P = m` (first guess equals the prior), `omega = 0.5`, `dotsp = 0`,
`dP = Pold = zeros(N)`, `ite = 0`. -/
def initState (N : ℕ) (m : List ℚ) : BiftState :=
  { P := m, m := m, dP := List.replicate N 0, Pold := List.replicate N 0
    omega := 1/2, dotsp := 0, s := 0, ite := 0 }

/-- The list of `omega` values after each executed outer iteration. -/
def omegaTrace (ctx : BiftCtx) : ℕ → BiftState → List ℚ
  | 0, _ => []
  | fuel + 1, st =>
    if loopGuard st then
      (outerStep ctx st).omega :: omegaTrace ctx fuel (outerStep ctx st)
    else []

/-!
## Shifted identity and the evidence functional:
`shiftLeft`, `shiftRight` (lines 613–649), `calcPosterior` (lines 703–759)
-/

/-- Python/numba array indexing: a negative index wraps by the length. -/
def pyIdx (L : ℕ) (z : ℤ) : ℕ :=
  if z < 0 then (z + L).toNat else z.toNat

/-- Row-major flattening of an `n × n` matrix (`a.reshape(1, n*n)`). -/
def flattenM (n : ℕ) (a : ℕ → ℕ → ℚ) : ℕ → ℚ :=
  fun p => a (p / n) (p % n)

/-- `shiftLeft(a, shift)` on an `n × n` matrix: the flattened array is
shifted left, with `res[i] = b[array_length-1-i-shift]` (a negative index,
wrapping) for the last `shift` positions. -/
def shiftLeftM (n shift : ℕ) (a : ℕ → ℕ → ℚ) : ℕ → ℕ → ℚ := fun i j =>
  let L := n * n
  let b := flattenM n a
  let p := i * n + j
  if p < L - shift then b (shift + p) else b (pyIdx L ((L : ℤ) - 1 - p - shift))

/-- `shiftRight(a, shift)` on an `n × n` matrix: `res[i] = b[i - shift]`
with negative indices wrapping. -/
def shiftRightM (n shift : ℕ) (a : ℕ → ℕ → ℚ) : ℕ → ℕ → ℚ := fun i j =>
  let b := flattenM n a
  let p := i * n + j
  b (pyIdx (n * n) ((p : ℤ) - shift))

/-- `np.eye`. -/
def eyeM : ℕ → ℕ → ℚ := fun i j => if i = j then 1 else 0

/-- The matrix `A` built inside `calcPosterior` (lines 733–744):
`mat1 = shiftLeft(eye, 1)` with `mat1[n-1, n-1]` zeroed,
`mat2 = shiftRight(eye, 1)` with `mat2[0, 0]` zeroed,
`A = (mat1 + mat2) * (-0.5) + eye`. -/
def calcA (n : ℕ) : ℕ → ℕ → ℚ := fun i j =>
  let mat1 := fun i j =>
    if i = n - 1 ∧ j = n - 1 then 0 else shiftLeftM n 1 eyeM i j
  let mat2 := fun i j =>
    if i = 0 ∧ j = 0 then 0 else shiftRightM n 1 eyeM i j
  (mat1 i j + mat2 i j) * (-(1/2)) + eyeM i j

/-- `scipy.linalg.det` of the leading `n × n` block. -/
def detQ (n : ℕ) (f : ℕ → ℕ → ℚ) : ℚ :=
  (Matrix.of fun i j : Fin n => f i.1 j.1).det

/-- `calcPosterior(alpha, dmax, s, Chi, B)` (lines 703–759), with `n` the
size `max(B.shape)` and `logA` standing for `np.log`:
`detAB = det(B/alpha + A)`, `logdetA = log(N+1) − log(2)·N`,
`Q = alpha·s − 0.5·Chi`,
`Evidence = 0.5·logdetA + Q − 0.5·log(detAB) − log(1/alpha)`. -/
def calcPosterior (logA : ℚ → ℚ) (alpha dmax s Chi : ℚ) (B : ℕ → ℕ → ℚ)
    (n : ℕ) : ℚ :=
  let _ := dmax
  let A := calcA n
  let detAB := detQ n (fun i j => B i j / alpha + A i j)
  let logdetA := logA ((n : ℚ) + 1) - logA 2 * n
  let alphaPrior := 1 / alpha
  let Q := alpha * s - 1/2 * Chi
  1/2 * logdetA + Q - 1/2 * logA detAB - logA alphaPrior

/-!
## `C_seeksol` (lines 238–294)
-/

/-- `sum_dia` of `C_seeksol` (line 250): the vector
`f_k = Σ_i T[i,k] · I_exp[i] / sigma[i]` — note the division is by
`sigma_sq = np.matrix(sigma)`, which is `sigma` itself, NOT its square. -/
def sum_dia (M : ℕ) (T : ℕ → ℕ → ℚ) (I_exp sigma : ℕ → ℚ) : ℕ → ℚ :=
  fun k => sumR M (fun i => T i k * (I_exp i / sigma i))

/-- `B` of `C_seeksol` (line 252): `B[k,j] = Σ_i T[i,k] · T[i,j] / sigma[i]`
— again divided by `sigma`, not `sigma²`. -/
def seeksolB (M : ℕ) (T : ℕ → ℕ → ℚ) (sigma : ℕ → ℚ) : ℕ → ℕ → ℚ :=
  fun k j => sumR M (fun i => T i k * (T i j / sigma i))

/-- The value of `f_k` demanded by the specification:
`f_k = Σ_i T[i,k] · I_exp[i] / sigma[i]²` (division by the variance).
This definition follows the spec's words, to be compared with `sum_dia`. -/
def sum_dia_spec (M : ℕ) (T : ℕ → ℕ → ℚ) (I_exp sigma : ℕ → ℚ) : ℕ → ℚ :=
  fun k => sumR M (fun i => T i k * I_exp i / sigma i ^ 2)

/-- The value of `B[k,j]` demanded by the specification:
`B[k,j] = Σ_i T[i,k] · T[i,j] / sigma[i]²`.
This definition follows the spec's words, to be compared with `seeksolB`. -/
def seeksolB_spec (M : ℕ) (T : ℕ → ℕ → ℚ) (sigma : ℕ → ℚ) : ℕ → ℕ → ℚ :=
  fun k j => sumR M (fun i => T i k * T i j / sigma i ^ 2)

/-- The solver context assembled by `C_seeksol` (lines 250–284):
`bkk = diag(B)`, `Bmat = B − diag(B)`, `bkkmax = max(bkk) * 10`. -/
def seeksolCtx (sqrtA : ℚ → ℚ) (M N : ℕ) (T : ℕ → ℕ → ℚ)
    (I_exp sigma : ℕ → ℚ) (alpha : ℚ) : BiftCtx :=
  let B := seeksolB M T sigma
  { N := N
    alpha := alpha
    B := B
    Bmat := fun k j => if k = j then 0 else B k j
    sum_dia := sum_dia M T I_exp sigma
    bkk := fun k => B k k
    bkkmax := npmaxF N (fun k => B k k) * 10
    sqrtA := sqrtA }

/-- The model intensity `I_m = P · Tᵀ` (line 285). -/
def modelI (N : ℕ) (T : ℕ → ℕ → ℚ) (P : List ℚ) : ℕ → ℚ :=
  fun i => sumR N (fun j => P.getD j 0 * T i j)

/-- `C_seeksol` (lines 238–294): runs the inner solver from `P = m`, then
computes `I_m = P·Tᵀ`, `difftst_i = (I_exp_i − I_m_i)²/sigma_i²`,
`c = Σ difftst`, the posterior, and returns `(P, post, c / I_exp.size)`. -/
def C_seeksol (sqrtA logA : ℚ → ℚ) (M N : ℕ) (I_exp sigma : ℕ → ℚ)
    (m : List ℚ) (alpha dmax : ℚ) (T : ℕ → ℕ → ℚ) : List ℚ × ℚ × ℚ :=
  let ctx := seeksolCtx sqrtA M N T I_exp sigma alpha
  let fin := bift ctx (initState N m)
  let I_m := modelI N T fin.P
  let c := sumR M (fun i => (I_exp i - I_m i) ^ 2 / sigma i ^ 2)
  let post := calcPosterior logA alpha dmax fin.s c ctx.B N
  (fin.P, post, c / M)

/-!
## Measurement container and IFT artifact
-/

/-- The read side of the measurement container (`Ep`): full `q`, `i`, `err`
sequences and the selected window `[qmin, qmax)` returned by `getQrange`. -/
structure Measurement where
  q : List ℚ
  i : List ℚ
  err : List ℚ
  qmin : ℕ
  qmax : ℕ

/-- Modelled from the spec: the `SASM.IFTM` artifact container is not under
`src/` (only its caller `BIFT.py` is); per the spec's artifact schema (§6) it
is a plain record of the ordered sequences `p`, `r`, `err_p` (ones),
`i_orig`, `q_orig`, `err_orig` (windowed measurement), `fit`, plus the
numeric metadata bag; it stores its constructor arguments unchanged. -/
structure IFTM where
  p : List ℚ
  r : List ℚ
  err_p : List ℚ
  i_orig : List ℚ
  q_orig : List ℚ
  err_orig : List ℚ
  fit : List ℚ
  info_alpha : ℚ
  info_dmax : ℚ
  info_I0 : ℚ
  info_ChiSquared : ℚ
  info_Rg : ℚ
  info_post : ℚ

/-- The result-assembly block shared verbatim by `SingleSolve`
(lines 326–365) and `doBift` (lines 502–541): build
`r = linspace(0, dmaxfin, N+2)`, `dr = r[2] − r[1]`, pin a zero at each end
of `Pr`, divide by `4·π·dr`, integrate for `I0` and `Rg`, and package the
artifact.  `piA`/`sqrtA` stand for `np.pi`/`np.sqrt`. -/
def assembleIFT (piA : ℚ) (sqrtA : ℚ → ℚ) (Pr : List ℚ) (Fit : List ℚ)
    (dmaxfin alphafin chi post : ℚ) (iw qw errw : List ℚ) : IFTM :=
  let r := linspace 0 dmaxfin (Pr.length + 2)
  let dr := r.getD 2 0 - r.getD 1 0
  let Pr2 := ((0 : ℚ) :: Pr ++ [0]).map (fun x => x / (4 * piA * dr))
  let area := trapz Pr2 r
  let area2 := trapz (List.zipWith (fun p rv => p * rv ^ 2) Pr2 r) r
  let RgSq := area2 / (2 * area)
  let Rg := sqrtA |RgSq|
  let I0 := area * 4 * piA
  { p := Pr2, r := r, err_p := List.replicate Pr2.length 1
    i_orig := iw, q_orig := qw, err_orig := errw, fit := Fit
    info_alpha := alphafin, info_dmax := dmaxfin, info_I0 := I0
    info_ChiSquared := chi, info_Rg := Rg, info_post := post }

/-!
## Entry points: `SingleSolve` (lines 311–367), `GetEvidence` (297–309),
`doBift` (389–553)
-/

/-- `SingleSolve(alpha, dmax, Ep, N)`: fit at forced `Dmax` and `alpha`.
Builds the `r` grid, `T`, the sphere prior, runs `C_seeksol`, and assembles
the artifact.  No input validation of any kind is performed: every call
proceeds directly into the numerical core. -/
def SingleSolve (sinA sqrtA logA : ℚ → ℚ) (piA : ℚ)
    (alpha dmax : ℚ) (Ep : Measurement) (N : ℕ) : IFTM :=
  let qw := pySlice Ep.q Ep.qmin Ep.qmax
  let iw := pySlice Ep.i Ep.qmin Ep.qmax
  let errw := pySlice Ep.err Ep.qmin Ep.qmax
  let M := qw.length
  let r := linspace 0 dmax N
  let T := createTransMatrix sinA qw r
  let prior := makePriorDistDistribution Ep.i N dmax
  let res := C_seeksol sqrtA logA M N (fun k => iw.getD k 0)
    (fun k => errw.getD k 0) prior alpha dmax T
  let Fit := (List.range M).map (modelI N T res.1)
  assembleIFT piA sqrtA res.1 Fit dmax alpha res.2.2 res.2.1 iw qw errw

/-- `GetEvidence(alpha, dmax, Ep, N)` (lines 297–309): `alpha` arrives as
`log(alpha)` and is exponentiated (`expA` stands for `np.exp`); returns
`(-evidence, chi, P)`. -/
def GetEvidence (sinA sqrtA logA expA : ℚ → ℚ)
    (alphaLog dmax : ℚ) (Ep : Measurement) (N : ℕ) : ℚ × ℚ × List ℚ :=
  let alpha := expA alphaLog
  let qw := pySlice Ep.q Ep.qmin Ep.qmax
  let iw := pySlice Ep.i Ep.qmin Ep.qmax
  let errw := pySlice Ep.err Ep.qmin Ep.qmax
  let M := qw.length
  let r := linspace 0 dmax N
  let T := createTransMatrix sinA qw r
  let prior := makePriorDistDistribution Ep.i N dmax
  let res := C_seeksol sqrtA logA M N (fun k => iw.getD k 0)
    (fun k => errw.getD k 0) prior alpha dmax T
  (-res.2.1, res.2.2, res.1)

/-- A record put on the progress queue by `doBift`.  `update` carries
`{alpha, evidence, chi, dmax, spoint, tpoint}`; `updateStatus` is the
`'Running a fine search'` update (line 474); `canceled` and `failed` are the
`{'canceled': True}` / `{'failed': True}` records. -/
inductive QRec where
  | update (alpha evidence chi dmax : ℚ) (spoint tpoint : ℕ)
  | updateStatus (alpha evidence chi dmax : ℚ) (spoint tpoint : ℕ)
  | canceled
  | failed
  deriving DecidableEq

/-- Is a queue record a grid-cell `update` record? -/
def QRec.isUpdate : QRec → Bool
  | .update _ _ _ _ _ _ => true
  | _ => false

/-- Is a queue record a `canceled` record? -/
def QRec.isCanceled : QRec → Bool
  | .canceled => true
  | _ => false

/-- Loop-carried state of the grid search in `doBift` (lines 415–468):
running best posterior and chi, best hyperparameters, the current flat cell
index `current_point`, the accumulated posteriors (`all_posteriors` in
traversal order), and the emitted records. -/
structure GridState where
  finalpost : ℚ
  bestc : ℚ
  alphafin : ℚ
  dmaxfin : ℚ
  cp : ℕ
  posts : List ℚ
  recs : List QRec

/-- The inner loop of the grid search over `alpha_points` (lines 432–466),
for a fixed `each_dmax`.  `cancel t` is the value of the process-wide
`RAWGlobals.cancel_bift` flag at its `t`-th read (one read per cell, before
the cell is evaluated); `evalC` evaluates `GetEvidence` for a cell and
returns `(post, c)`.  On a new best posterior the code stores
`alphafin = np.exp(each_alpha)` (line 457), hence the `expA` argument.
Returns the updated state and whether the search was canceled. -/
def gridInner (expA : ℚ → ℚ) (cancel : ℕ → Bool) (evalC : ℚ → ℚ → ℚ × ℚ)
    (total : ℕ) (each_dmax : ℚ) :
    List ℚ → GridState → GridState × Bool
  | [], st => (st, false)
  | each_alpha :: rest, st =>
    if cancel st.cp then
      ({ st with recs := st.recs ++ [QRec.canceled] }, true)
    else
      let pc := evalC each_alpha each_dmax
      let st' : GridState :=
        { finalpost := if pc.1 < st.finalpost then pc.1 else st.finalpost
          bestc := if pc.2 < st.bestc then pc.2 else st.bestc
          alphafin := if pc.1 < st.finalpost then expA each_alpha else st.alphafin
          dmaxfin := if pc.1 < st.finalpost then each_dmax else st.dmaxfin
          cp := st.cp + 1
          posts := st.posts ++ [pc.1]
          recs := st.recs ++
            [QRec.update each_alpha pc.1 pc.2 each_dmax st.cp total] }
      gridInner expA cancel evalC total each_dmax rest st'

/-- The outer loop of the grid search over `dmax_points` (lines 429–468). -/
def gridOuter (expA : ℚ → ℚ) (cancel : ℕ → Bool) (evalC : ℚ → ℚ → ℚ × ℚ)
    (total : ℕ) (alpha_points : List ℚ) :
    List ℚ → GridState → GridState × Bool
  | [], st => (st, false)
  | each_dmax :: rest, st =>
    let r := gridInner expA cancel evalC total each_dmax alpha_points st
    if r.2 then r else gridOuter expA cancel evalC total alpha_points rest r.1

/-- `doBift` (lines 389–553): the grid search over
`linspace(log alphamin, log alphamax, alphaN) × linspace(minDmax, maxDmax,
dmaxN)`, the `failed` check, the fine-search hand-off and the final solve
plus assembly.  The Nelder–Mead fine search (`fineSearch`/`fmin`) is
abstracted by the argument `fineSearchA`, which returns the refined
`(alphafin, dmaxfin)` or `none` when `fmin` observed the cancellation flag;
the claims settled here never reach it or do not depend on it.  Returns the
emitted records and the artifact (`none` on cancel or failure). -/
def doBift (sinA sqrtA logA expA : ℚ → ℚ) (piA : ℚ)
    (fineSearchA : ℚ → ℚ → Option (ℚ × ℚ)) (cancel : ℕ → Bool)
    (Ep : Measurement) (N : ℕ)
    (alphamax alphamin : ℚ) (alphaN : ℕ) (maxDmax minDmax : ℚ) (dmaxN : ℕ) :
    List QRec × Option IFTM :=
  let alpha_points := linspace (logA alphamin) (logA alphamax) alphaN
  let dmax_points := linspace minDmax maxDmax dmaxN
  let total := dmax_points.length * alpha_points.length
  let evalC : ℚ → ℚ → ℚ × ℚ := fun a d =>
    let ge := GetEvidence sinA sqrtA logA expA a d Ep N
    (ge.1, ge.2.1)
  let st0 : GridState :=
    { finalpost := 1e20, bestc := 1e22, alphafin := -1, dmaxfin := -1
      cp := 0, posts := [], recs := [] }
  let r := gridOuter expA cancel evalC total alpha_points dmax_points st0
  if r.2 then (r.1.recs, none)
  else if r.1.alphafin = -1 ∧ r.1.dmaxfin = -1 then
    (r.1.recs ++ [QRec.failed], none)
  else
    let alphafin0 := r.1.alphafin
    let recs1 := r.1.recs ++
      [QRec.updateStatus alphafin0 r.1.finalpost r.1.bestc r.1.dmaxfin
        r.1.cp total]
    match fineSearchA (logA alphafin0) r.1.dmaxfin with
    | none => (recs1 ++ [QRec.canceled], none)
    | some fin =>
      let alphafin := fin.1
      let dmaxfin := fin.2
      let qw := pySlice Ep.q Ep.qmin Ep.qmax
      let iw := pySlice Ep.i Ep.qmin Ep.qmax
      let errw := pySlice Ep.err Ep.qmin Ep.qmax
      let M := qw.length
      let rgrid := linspace 0 dmaxfin N
      let T := createTransMatrix sinA qw rgrid
      let prior := makePriorDistDistribution Ep.i N dmaxfin
      let res := C_seeksol sqrtA logA M N (fun k => iw.getD k 0)
        (fun k => errw.getD k 0) prior alphafin dmaxfin T
      let Fit := (List.range M).map (modelI N T res.1)
      let art := assembleIFT piA sqrtA res.1 Fit dmaxfin alphafin res.2.2
        res.2.1 iw qw errw
      (recs1 ++
        [QRec.update alphafin res.2.1 res.2.2 dmaxfin r.1.cp total],
        some art)

/-- Number of grid-cell `update` records in a queue transcript. -/
def numUpdates (l : List QRec) : ℕ :=
  (l.filter QRec.isUpdate).length

/-- Number of `canceled` records in a queue transcript. -/
def numCanceled (l : List QRec) : ℕ :=
  (l.filter QRec.isCanceled).length

/-!
## Concrete inputs used to exercise the embedding
-/

/-- A concrete transform matrix: the 2×2 identity (every `B` derived from it
with unit `sigma` is the identity, so the solver dynamics are explicit). -/
def cexT : ℕ → ℕ → ℚ := fun i j => if i = j then 1 else 0

/-- The solver context `C_seeksol` precomputes for the windowed measurement
`I_exp = (0, 0)`, `sigma = (1, 1)`, `T = cexT`, `alpha = 1`:
`B = I₂`, `Bmat = 0`, `sum_dia = 0`, `bkk = (1, 1)`, `bkkmax = 10`. -/
def cexCtx : BiftCtx :=
  seeksolCtx (fun _ => 1) 2 2 cexT (fun _ => 0) (fun _ => 1) 1

/-- The initial solver state for the prior `m = (1, 1)`. -/
def cexInit : BiftState := initState 2 [1, 1]

/-- The full `C_seeksol` run on the same inputs (`dmax = 5` is arbitrary:
`calcPosterior` ignores it). -/
def cexSeeksol : List ℚ × ℚ × ℚ :=
  C_seeksol (fun _ => 1) (fun _ => 0) 2 2 (fun _ => 0) (fun _ => 1) [1, 1] 1 5
    cexT

/-- A one-point measurement: `q = i = err = [1]`, window `[0, 1)`. -/
def cexEp : Measurement := { q := [1], i := [1], err := [1], qmin := 0, qmax := 1 }

/-- `SingleSolve` invoked with `N = 3 < 4` (an input the specification says
must be rejected), `alpha = 1`, `dmax = 2`, on `cexEp`; the oracle stand-ins
are `sin ↦ 0`, `sqrt ↦ 1`, `log ↦ 0`, `π ↦ 1`. -/
def cexSingle : IFTM :=
  SingleSolve (fun _ => 0) (fun _ => 1) (fun _ => 0) 1 1 2 cexEp 3

/-- A complete `doBift` run on `cexEp` with a 1×1 grid
(`alphaN = dmaxN = 1`, `alpha` bounds `1`, `D_max` bounds `2`), `N = 3`,
never-set cancellation flag, and a fine-search stand-in returning
`(alpha, dmax) = (1, 2)`. -/
def cexDoBift : List QRec × Option IFTM :=
  doBift (fun _ => 0) (fun _ => 1) (fun _ => 0) (fun _ => 1) 1
    (fun _ _ => some (1, 2)) (fun _ => false) cexEp 3 1 1 1 2 2 1

/-- The artifact of `cexDoBift` (defaulting to a dummy, never taken). -/
def cexDoBiftArt : IFTM :=
  cexDoBift.2.getD (assembleIFT 1 (fun _ => 1) [] [] 0 0 0 0 [] [] [])

/-!
## Helper lemmas
-/

theorem linspace_length (a b : ℚ) (n : ℕ) : (linspace a b n).length = n := by
  simp only [linspace, List.length_map, List.length_range]

theorem listSum_map_mulDiv (l : List ℚ) (c d : ℚ) :
    (l.map (fun x => x * c / d)).sum = l.sum * c / d := by
  induction l with
  | nil => simp
  | cons x xs ih => simp [ih, add_mul, add_div]

theorem listSum_nonneg (l : List ℚ) (h : ∀ x ∈ l, 0 ≤ x) : 0 ≤ l.sum := by
  induction l with
  | nil => simp
  | cons x xs ih =>
    simp only [List.sum_cons]
    have hx := h x (by simp)
    have := ih (fun y hy => h y (by simp [hy]))
    linarith

theorem listSum_pos_of_mem (l : List ℚ) (h0 : ∀ x ∈ l, 0 ≤ x)
    (y : ℚ) (hy : y ∈ l) (hyp : 0 < y) : 0 < l.sum := by
  induction l with
  | nil => simp at hy
  | cons x xs ih =>
    simp only [List.sum_cons]
    rcases List.mem_cons.mp hy with h | h
    · subst h
      have := listSum_nonneg xs (fun z hz => h0 z (by simp [hz]))
      linarith
    · have hx := h0 x (by simp)
      have := ih (fun z hz => h0 z (by simp [hz])) h
      linarith

theorem init_le_foldl_max (l : List ℚ) : ∀ a : ℚ, a ≤ l.foldl max a := by
  induction l with
  | nil => intro a; simp
  | cons b bs ih =>
    intro a
    exact le_trans (le_max_left a b) (ih (max a b))

theorem mem_le_foldl_max (l : List ℚ) : ∀ a x : ℚ, x ∈ l → x ≤ l.foldl max a := by
  induction l with
  | nil => intro a x hx; simp at hx
  | cons b bs ih =>
    intro a x hx
    rcases List.mem_cons.mp hx with h | h
    · subst h
      exact le_trans (le_max_right a x) (init_le_foldl_max bs (max a x))
    · exact ih (max a b) x h

theorem getD_map_range (g : ℕ → ℚ) (k n : ℕ) (h : k < n) :
    ((List.range n).map g).getD k 0 = g k := by
  have hl : k < ((List.range n).map g).length := by simp [h]
  rw [List.getD_eq_getElem _ _ hl, List.getElem_map, List.getElem_range]

theorem getD_mem_self (l : List ℚ) (k : ℕ) (h : k < l.length) :
    l.getD k 0 ∈ l := by
  rw [List.getD_eq_getElem _ _ h]
  exact List.getElem_mem h

theorem linspace_getD (a b : ℚ) (n k : ℕ) (h : k < n) :
    (linspace a b n).getD k 0 = a + (b - a) * (k : ℚ) / ((n : ℚ) - 1) := by
  unfold linspace
  exact getD_map_range _ k n h

theorem linspace_mem (a b : ℚ) (n : ℕ) (x : ℚ) (hx : x ∈ linspace a b n) :
    ∃ k : ℕ, k < n ∧ x = a + (b - a) * (k : ℚ) / ((n : ℚ) - 1) := by
  unfold linspace at hx
  obtain ⟨k, hk, rfl⟩ := List.mem_map.mp hx
  exact ⟨k, List.mem_range.mp hk, rfl⟩

theorem le_npmax_of_mem (l : List ℚ) (x : ℚ) (hx : x ∈ l) : x ≤ npmax l := by
  cases l with
  | nil => simp at hx
  | cons a as =>
    show x ≤ as.foldl max a
    rcases List.mem_cons.mp hx with h | h
    · subst h
      exact init_le_foldl_max as x
    · exact mem_le_foldl_max as a x h

/-!
## C1: the precomputed tensors `sum_dia` and `B` of `C_seeksol`
-/

/-- C1 (evaluation at the failing input): the claim says the precomputed
tensors divide by the variance `sigma²`, and the source's own comments say
`s^2_i` ("std to variance"), but `sigma_sq = np.matrix(sigma)` never squares,
so the code divides by `sigma`.  At `M = N = 1`, `T = [[1]]`,
`I_exp = [1]`, `sigma = [2]`: the code computes `f_0 = 1/2` and
`B[0,0] = 1/2`, while the claimed formulas give `1/4`. -/
theorem C1_sum_dia_divides_by_sigma_not_variance :
    sum_dia 1 (fun _ _ => 1) (fun _ => 1) (fun _ => 2) 0 = 1/2 ∧
    sum_dia_spec 1 (fun _ _ => 1) (fun _ => 1) (fun _ => 2) 0 = 1/4 ∧
    seeksolB 1 (fun _ _ => 1) (fun _ => 2) 0 0 = 1/2 ∧
    seeksolB_spec 1 (fun _ _ => 1) (fun _ => 2) 0 0 = 1/4 ∧
    sum_dia 1 (fun _ _ => 1) (fun _ => 1) (fun _ => 2) 0 ≠
      sum_dia_spec 1 (fun _ _ => 1) (fun _ => 1) (fun _ => 2) 0 := by
  norm_num [sum_dia, sum_dia_spec, seeksolB, seeksolB_spec, sumR]

/-!
## C4: the floor-and-rescale step of the sphere prior
-/

/-- C4 counterexample: for `N = 3`, `scale_factor = 1`, `D_max = 2` the
floor threshold is `avm = 3/640`, but after the rescale the first bin of the
returned prior is `15/3232 < avm`; the guarantee "every bin ≥ avm" fails. -/
theorem C4_counterexample :
    sphereAvm 3 1 2 = 3/640 ∧
    (distDistribution_Sphere 3 1 2).1.getD 0 0 = 15/3232 ∧
    ¬ (sphereAvm 3 1 2 ≤ (distDistribution_Sphere 3 1 2).1.getD 0 0) := by
  norm_num [distDistribution_Sphere, sphereFloored, sphereAvm, spherePraw,
    linspace, npmax, List.range_succ]

/-- One raw sphere bin, as a closed formula over the grid value
`r_k = (linspace 0 dmax N).getD k 0`. -/
theorem spherePraw_getD (N : ℕ) (scale dmax : ℚ) (k : ℕ) (hk : k < N) :
    (spherePraw N scale dmax).getD k 0 =
      ((linspace 0 dmax N).getD k 0) ^ 2 *
        (1 - 3/2 * ((linspace 0 dmax N).getD k 0 / dmax)
          + 1/2 * ((linspace 0 dmax N).getD k 0 / dmax) ^ 3) *
        (scale / (dmax ^ 3 / 24) * (linspace 0 dmax N).getD 1 0) := by
  have hl : k < (linspace 0 dmax N).length := by
    rw [linspace_length]; exact hk
  have hlm : k < ((linspace 0 dmax N).map (fun r =>
      r ^ 2 * (1 - 3/2 * (r / dmax) + 1/2 * (r / dmax) ^ 3) *
        (scale / (dmax ^ 3 / 24) * (linspace 0 dmax N).getD 1 0))).length := by
    rw [List.length_map]; exact hl
  simp only [spherePraw]
  rw [List.getD_eq_getElem _ _ hlm, List.getElem_map,
    ← List.getD_eq_getElem _ _ hl]

/-- The grid values lie in `[0, dmax]`. -/
theorem linspace_bounds (dmax : ℚ) (N k : ℕ) (hN : 3 ≤ N) (hk : k < N)
    (hd : 0 < dmax) :
    0 ≤ (linspace 0 dmax N).getD k 0 ∧ (linspace 0 dmax N).getD k 0 ≤ dmax := by
  have hN1 : (0 : ℚ) < (N : ℚ) - 1 := by
    have : (3 : ℚ) ≤ (N : ℚ) := by exact_mod_cast hN
    linarith
  rw [linspace_getD 0 dmax N k hk]
  constructor
  · have hk0 : (0 : ℚ) ≤ (k : ℚ) := Nat.cast_nonneg k
    rw [zero_add, sub_zero]
    exact div_nonneg (mul_nonneg (le_of_lt hd) hk0) (le_of_lt hN1)
  · rw [zero_add, sub_zero, div_le_iff₀ hN1]
    have hkN : (k : ℚ) ≤ (N : ℚ) - 1 := by
      have : (k : ℚ) + 1 ≤ (N : ℚ) := by exact_mod_cast hk
      linarith
    nlinarith

/-- Nonnegativity of the raw sphere bins: every entry of `spherePraw` is
`r²·(1 − 1.5x + 0.5x³)·norm` with `x = r/dmax ∈ [0, 1]` and `norm ≥ 0`. -/
theorem spherePraw_nonneg (N : ℕ) (scale dmax : ℚ) (hN : 3 ≤ N)
    (hs : 0 < scale) (hd : 0 < dmax) :
    ∀ x ∈ spherePraw N scale dmax, 0 ≤ x := by
  intro x hx
  have hlen : (spherePraw N scale dmax).length = N := by
    unfold spherePraw
    rw [List.length_map, linspace_length]
  obtain ⟨i, hi, rfl⟩ := List.getElem_of_mem hx
  rw [← List.getD_eq_getElem _ 0 hi]
  have hiN : i < N := by rw [hlen] at hi; exact hi
  rw [spherePraw_getD N scale dmax i hiN]
  obtain ⟨hr0, hrd⟩ := linspace_bounds dmax N i hN hiN hd
  obtain ⟨hΔ0, _⟩ := linspace_bounds dmax N 1 hN (by omega) hd
  set r := (linspace 0 dmax N).getD i 0 with hrdef
  have hx0 : 0 ≤ r / dmax := div_nonneg hr0 (le_of_lt hd)
  have hx1 : r / dmax ≤ 1 := by
    rw [div_le_one hd]; exact hrd
  have hpoly : 0 ≤ 1 - 3/2 * (r / dmax) + 1/2 * (r / dmax) ^ 3 := by
    nlinarith [sq_nonneg (r / dmax - 1), sq_nonneg (r / dmax)]
  have hnorm : 0 ≤ scale / (dmax ^ 3 / 24) *
      (linspace 0 dmax N).getD 1 0 := by
    have h24 : (0 : ℚ) < dmax ^ 3 / 24 := by positivity
    exact mul_nonneg (le_of_lt (div_pos hs h24)) hΔ0
  exact mul_nonneg (mul_nonneg (sq_nonneg r) hpoly) hnorm

/-- Strict positivity of the second raw sphere bin (`k = 1`, where
`r = dmax/(N−1)` lies strictly inside `(0, dmax)`). -/
theorem spherePraw_getD_one_pos (N : ℕ) (scale dmax : ℚ) (hN : 3 ≤ N)
    (hs : 0 < scale) (hd : 0 < dmax) :
    0 < (spherePraw N scale dmax).getD 1 0 := by
  have hN1 : (2 : ℚ) ≤ (N : ℚ) - 1 := by
    have : (3 : ℚ) ≤ (N : ℚ) := by exact_mod_cast hN
    linarith
  have hN1' : (0 : ℚ) < (N : ℚ) - 1 := by linarith
  have hΔ : (linspace 0 dmax N).getD 1 0 = dmax / ((N : ℚ) - 1) := by
    rw [linspace_getD 0 dmax N 1 (by omega)]
    push_cast
    ring
  rw [spherePraw_getD N scale dmax 1 (by omega), hΔ]
  have hrpos : 0 < dmax / ((N : ℚ) - 1) := div_pos hd hN1'
  have hx : dmax / ((N : ℚ) - 1) / dmax = 1 / ((N : ℚ) - 1) := by
    field_simp
    ring
  rw [hx]
  have hxpos : 0 < 1 / ((N : ℚ) - 1) := by positivity
  have hxhalf : 1 / ((N : ℚ) - 1) ≤ 1/2 := by
    rw [div_le_div_iff₀ hN1' (by norm_num : (0:ℚ) < 2)]
    linarith
  have hpoly : 0 < 1 - 3/2 * (1 / ((N : ℚ) - 1)) +
      1/2 * (1 / ((N : ℚ) - 1)) ^ 3 := by
    nlinarith [pow_pos hxpos 3]
  have hnorm : 0 < scale / (dmax ^ 3 / 24) * (dmax / ((N : ℚ) - 1)) := by
    positivity
  positivity

/-- C4, as amended: for `N ≥ 3`, positive `scale_factor` and `D_max`, the
returned prior preserves the pre-floor sum `S1` exactly, is everywhere
non-negative, and every bin is at least `avm·S1/S2` (a positive bound equal
to `0.005` times the maximum of the returned prior) — but not necessarily at
least `avm` itself, since the rescale shrinks the floored bins by the factor
`S1/S2 ≤ 1`. -/
theorem C4_amended (N : ℕ) (scale dmax : ℚ) (hN : 3 ≤ N) (hs : 0 < scale)
    (hd : 0 < dmax) :
    (distDistribution_Sphere N scale dmax).1.sum
        = (spherePraw N scale dmax).sum ∧
    (∀ x ∈ (distDistribution_Sphere N scale dmax).1,
        sphereAvm N scale dmax *
          ((spherePraw N scale dmax).sum / (sphereFloored N scale dmax).sum)
          ≤ x) ∧
    (∀ x ∈ (distDistribution_Sphere N scale dmax).1, 0 ≤ x) ∧
    0 < sphereAvm N scale dmax *
      ((spherePraw N scale dmax).sum / (sphereFloored N scale dmax).sum) := by
  have hnonneg := spherePraw_nonneg N scale dmax hN hs hd
  have hlen : (spherePraw N scale dmax).length = N := by
    unfold spherePraw
    rw [List.length_map, linspace_length]
  have hmem1 : (spherePraw N scale dmax).getD 1 0 ∈ spherePraw N scale dmax :=
    getD_mem_self _ 1 (by omega)
  have hpos1 := spherePraw_getD_one_pos N scale dmax hN hs hd
  have hS1 : 0 < (spherePraw N scale dmax).sum :=
    listSum_pos_of_mem _ hnonneg _ hmem1 hpos1
  have havm : 0 < sphereAvm N scale dmax := by
    unfold sphereAvm
    have := le_npmax_of_mem _ _ hmem1
    nlinarith
  have hfloor_ge : ∀ x ∈ sphereFloored N scale dmax,
      sphereAvm N scale dmax ≤ x := by
    intro x hx
    unfold sphereFloored at hx
    obtain ⟨p, _, rfl⟩ := List.mem_map.mp hx
    by_cases h : p > sphereAvm N scale dmax
    · simp only [if_pos h]
      exact le_of_lt h
    · simp only [if_neg h]
      exact le_refl _
  have hflen : (sphereFloored N scale dmax).length = N := by
    unfold sphereFloored
    rw [List.length_map, hlen]
  have hfmem : (sphereFloored N scale dmax).getD 0 0
      ∈ sphereFloored N scale dmax := getD_mem_self _ 0 (by omega)
  have hS2 : 0 < (sphereFloored N scale dmax).sum := by
    refine listSum_pos_of_mem _ ?_ _ hfmem ?_
    · intro x hx
      exact le_trans (le_of_lt havm) (hfloor_ge x hx)
    · exact lt_of_lt_of_le havm (hfloor_ge _ hfmem)
  have hratio : 0 < (spherePraw N scale dmax).sum /
      (sphereFloored N scale dmax).sum := div_pos hS1 hS2
  refine ⟨?_, ?_, ?_, ?_⟩
  · show ((sphereFloored N scale dmax).map
      (fun p => p * (spherePraw N scale dmax).sum /
        (sphereFloored N scale dmax).sum)).sum = _
    rw [listSum_map_mulDiv]
    rw [mul_comm, mul_div_assoc, div_self (ne_of_gt hS2), mul_one]
  · intro x hx
    obtain ⟨p, hp, rfl⟩ := List.mem_map.mp hx
    have hple := hfloor_ge p hp
    rw [mul_div_assoc]
    exact mul_le_mul_of_nonneg_right hple (le_of_lt hratio)
  · intro x hx
    obtain ⟨p, hp, rfl⟩ := List.mem_map.mp hx
    have hpavm := le_trans (le_of_lt havm) (hfloor_ge p hp)
    rw [mul_div_assoc]
    exact mul_nonneg hpavm (le_of_lt hratio)
  · exact mul_pos havm hratio

/-!
## C3: the matrix `A` of the evidence functional
-/

theorem nat_sq_pred (n : ℕ) (hn : 1 ≤ n) : (n - 1) * n + (n - 1) = n * n - 1 := by
  obtain ⟨m, rfl⟩ : ∃ m, n = m + 1 := ⟨n - 1, by omega⟩
  have e : (m + 1) * (m + 1) = m * (m + 1) + (m + 1) := by ring
  rw [Nat.add_sub_cancel, e]
  generalize m * (m + 1) = t
  omega

theorem flat_div (n : ℕ) (hn0 : 0 < n) (a b : ℕ) (hb : b < n) :
    (a * n + b) / n = a := by
  rw [Nat.add_comm, Nat.add_mul_div_right _ _ hn0, Nat.div_eq_of_lt hb,
    Nat.zero_add]

theorem flat_mod (n : ℕ) (a b : ℕ) (hb : b < n) :
    (a * n + b) % n = b := by
  rw [Nat.add_comm, Nat.add_mul_mod_self_right, Nat.mod_eq_of_lt hb]

theorem flat_le (n : ℕ) (hn : 1 ≤ n) (i j : ℕ) (hi : i < n) (hj : j < n) :
    i * n + j ≤ n * n - 1 :=
  calc i * n + j ≤ (n - 1) * n + j :=
        Nat.add_le_add_right (Nat.mul_le_mul_right n (by omega)) j
    _ ≤ (n - 1) * n + (n - 1) := Nat.add_le_add_left (by omega) _
    _ = n * n - 1 := nat_sq_pred n hn

theorem flat_corner_iff (n : ℕ) (hn : 2 ≤ n) (i j : ℕ) (hi : i < n)
    (hj : j < n) : i * n + j = n * n - 1 ↔ i = n - 1 ∧ j = n - 1 := by
  constructor
  · intro h
    by_cases hi' : i = n - 1
    · refine ⟨hi', ?_⟩
      rw [hi'] at h
      have := nat_sq_pred n (by omega)
      exact Nat.add_left_cancel (h.trans this.symm)
    · exfalso
      have h2 : i * n ≤ (n - 2) * n := Nat.mul_le_mul_right n (by omega)
      have h3 : (n - 2) * n + (n - 1) < (n - 1) * n + (n - 1) := by
        have e1 : (n - 1) * n = (n - 2) * n + n := by
          obtain ⟨m, rfl⟩ : ∃ m, n = m + 2 := ⟨n - 2, by omega⟩
          have e2 : (m + 2 - 1) * (m + 2) = (m + 2 - 2) * (m + 2) + (m + 2) := by
            simp only [Nat.add_sub_cancel]
            have : (m + 1) * (m + 2) = m * (m + 2) + (m + 2) := by ring
            simpa using this
          exact e2
        rw [e1]
        generalize (n - 2) * n = t
        omega
      have h4 : i * n + j < n * n - 1 := by
        have := nat_sq_pred n (by omega)
        calc i * n + j ≤ (n - 2) * n + j := Nat.add_le_add_right h2 j
          _ ≤ (n - 2) * n + (n - 1) := Nat.add_le_add_left (by omega) _
          _ < (n - 1) * n + (n - 1) := h3
          _ = n * n - 1 := this
      omega
  · rintro ⟨rfl, rfl⟩
    exact nat_sq_pred n (by omega)

/-- Value of `shiftLeft(eye, 1)` at an in-range position: the subdiagonal
ones, plus the wrapped one at `(n-1, n-1)`. -/
theorem shiftLeftM_eye (n : ℕ) (hn : 2 ≤ n) (i j : ℕ) (hi : i < n)
    (hj : j < n) :
    shiftLeftM n 1 eyeM i j =
      if i = j + 1 ∨ (i = n - 1 ∧ j = n - 1) then 1 else 0 := by
  have hn0 : 0 < n := by omega
  have hnn1 : 1 ≤ n * n := Nat.one_le_iff_ne_zero.mpr (by positivity)
  unfold shiftLeftM flattenM pyIdx eyeM
  by_cases hc : i = n - 1 ∧ j = n - 1
  · obtain ⟨hi', hj'⟩ := hc
    subst hi'
    subst hj'
    rw [nat_sq_pred n (by omega)]
    rw [if_neg (lt_irrefl (n * n - 1))]
    have hz : ((n * n : ℕ) : ℤ) - 1 - ((n * n - 1 : ℕ) : ℤ) - ((1 : ℕ) : ℤ)
        = -1 := by omega
    rw [hz]
    rw [if_pos (by norm_num : (-1 : ℤ) < 0)]
    have ht : ((-1 : ℤ) + ((n * n : ℕ) : ℤ)).toNat = n * n - 1 := by omega
    rw [ht]
    dsimp only
    rw [← nat_sq_pred n (by omega),
      flat_div n hn0 (n - 1) (n - 1) (by omega),
      flat_mod n (n - 1) (n - 1) (by omega)]
    simp
  · have hplt : i * n + j < n * n - 1 :=
      lt_of_le_of_ne (flat_le n (by omega) i j hi hj)
        (fun h => hc ((flat_corner_iff n hn i j hi hj).mp h))
    rw [if_pos hplt]
    by_cases hj1 : j + 1 < n
    · have h1p : 1 + (i * n + j) = i * n + (j + 1) := by
        generalize i * n = t
        omega
      rw [h1p]
      dsimp only
      rw [flat_div n hn0 i (j + 1) hj1, flat_mod n i (j + 1) hj1]
      by_cases he : i = j + 1
      · rw [if_pos he, if_pos (Or.inl he)]
      · rw [if_neg he, if_neg (by tauto)]
    · have hj1' : j + 1 = n := by omega
      have h1p : 1 + (i * n + j) = (i + 1) * n + 0 := by
        have e1 : (i + 1) * n = i * n + n := by ring
        rw [e1]
        generalize i * n = t
        omega
      rw [h1p]
      dsimp only
      rw [flat_div n hn0 (i + 1) 0 hn0, flat_mod n (i + 1) 0 hn0]
      rw [if_neg (by omega : ¬ i + 1 = 0)]
      rw [if_neg (by omega : ¬ (i = j + 1 ∨ (i = n - 1 ∧ j = n - 1)))]

/-- Value of `shiftRight(eye, 1)` at an in-range position: the superdiagonal
ones, plus the wrapped one at `(0, 0)`. -/
theorem shiftRightM_eye (n : ℕ) (hn : 2 ≤ n) (i j : ℕ) (hi : i < n)
    (hj : j < n) :
    shiftRightM n 1 eyeM i j =
      if j = i + 1 ∨ (i = 0 ∧ j = 0) then 1 else 0 := by
  have hn0 : 0 < n := by omega
  have hnn1 : 1 ≤ n * n := Nat.one_le_iff_ne_zero.mpr (by positivity)
  unfold shiftRightM flattenM pyIdx eyeM
  dsimp only
  by_cases hc : i = 0 ∧ j = 0
  · obtain ⟨hi', hj'⟩ := hc
    subst hi'
    subst hj'
    have hz : ((0 * n + 0 : ℕ) : ℤ) - ((1 : ℕ) : ℤ) = -1 := by omega
    rw [hz]
    rw [if_pos (by norm_num : (-1 : ℤ) < 0)]
    have ht : ((-1 : ℤ) + ((n * n : ℕ) : ℤ)).toNat = n * n - 1 := by omega
    rw [ht]
    rw [← nat_sq_pred n (by omega),
      flat_div n hn0 (n - 1) (n - 1) (by omega),
      flat_mod n (n - 1) (n - 1) (by omega)]
    simp
  · have hp1 : 1 ≤ i * n + j := by
      rcases Nat.eq_zero_or_pos i with hi0 | hi0
      · subst hi0
        have : j ≠ 0 := fun h => hc ⟨rfl, h⟩
        omega
      · have : n ≤ i * n := Nat.le_mul_of_pos_left n hi0
        omega
    have hz : ((i * n + j : ℕ) : ℤ) - ((1 : ℕ) : ℤ)
        = ((i * n + j - 1 : ℕ) : ℤ) := by
      omega
    rw [hz]
    rw [if_neg (by omega : ¬ ((i * n + j - 1 : ℕ) : ℤ) < 0)]
    rw [Int.toNat_natCast]
    by_cases hj0 : 1 ≤ j
    · have h1p : i * n + j - 1 = i * n + (j - 1) := by
        generalize i * n = t
        omega
      rw [h1p, flat_div n hn0 i (j - 1) (by omega),
        flat_mod n i (j - 1) (by omega)]
      by_cases he : i = j - 1
      · rw [if_pos he, if_pos (Or.inl (by omega))]
      · rw [if_neg he, if_neg (by omega)]
    · have hj0' : j = 0 := by omega
      have hi1 : 1 ≤ i := by
        rcases Nat.eq_zero_or_pos i with h0 | h0
        · exact absurd ⟨h0, hj0'⟩ hc
        · exact h0
      have h1p : i * n + j - 1 = (i - 1) * n + (n - 1) := by
        obtain ⟨t, rfl⟩ : ∃ t, i = t + 1 := ⟨i - 1, by omega⟩
        have e1 : (t + 1) * n = t * n + n := by ring
        rw [Nat.add_sub_cancel, e1]
        generalize t * n = u
        omega
      rw [h1p, flat_div n hn0 (i - 1) (n - 1) (by omega),
        flat_mod n (i - 1) (n - 1) (by omega)]
      rw [if_neg (by omega : ¬ i - 1 = n - 1)]
      rw [if_neg (by omega : ¬ (j = i + 1 ∨ (i = 0 ∧ j = 0)))]

/-- C3 counterexample: at `N = 3` the matrix `A` built by `calcPosterior`
has `A[0,1] = A[2,1] = −1/2`, not `0`: the corner zeroing of the shifted
matrices removes the wrapped ones at the *diagonal* positions `(0,0)` and
`(N−1,N−1)`, so the final `A` is the full tridiagonal. -/
theorem C3_counterexample :
    calcA 3 0 1 = -(1/2) ∧ calcA 3 2 1 = -(1/2) ∧ ((-(1/2) : ℚ) ≠ 0) := by
  refine ⟨?_, ?_, by norm_num⟩ <;>
  · norm_num [calcA, shiftLeftM, shiftRightM, flattenM, pyIdx, eyeM]
    try decide

/-- C3, as amended: for every `N ≥ 2` the matrix `A` built by
`calcPosterior` via the two circular shifts and the corner zeroing equals
the *full* tridiagonal matrix with `1` on the diagonal and `−0.5` on both
adjacent diagonals — including `A[0,1] = A[N−1,N−2] = −0.5`.  The entries
zeroed as "the 1 in the wrong place" are the wrapped ones at positions
`(0,0)` (in `mat2`) and `(N−1,N−1)` (in `mat1`) *before* the identity is
added, so no off-diagonal corner of `A` is zeroed. -/
theorem C3_amended (n : ℕ) (hn : 2 ≤ n) (i j : ℕ) (hi : i < n) (hj : j < n) :
    calcA n i j =
      if i = j then 1 else if i = j + 1 ∨ j = i + 1 then -(1/2) else 0 := by
  unfold calcA
  dsimp only
  rw [shiftLeftM_eye n hn i j hi hj, shiftRightM_eye n hn i j hi hj]
  unfold eyeM
  by_cases hij : i = j
  · subst hij
    rw [if_pos rfl, if_pos rfl]
    by_cases hc : i = n - 1
    · rw [if_pos ⟨hc, hc⟩, if_neg (by omega : ¬ (i = 0 ∧ i = 0))]
      rw [if_neg (by omega : ¬ (i = i + 1 ∨ (i = 0 ∧ i = 0)))]
      ring
    · rw [if_neg (by tauto : ¬ (i = n - 1 ∧ i = n - 1))]
      rw [if_neg (by omega : ¬ (i = i + 1 ∨ (i = n - 1 ∧ i = n - 1)))]
      by_cases h0 : i = 0
      · rw [if_pos ⟨h0, h0⟩]
        ring
      · rw [if_neg (by tauto : ¬ (i = 0 ∧ i = 0))]
        rw [if_neg (by omega : ¬ (i = i + 1 ∨ (i = 0 ∧ i = 0)))]
        ring
  · rw [if_neg hij, if_neg hij]
    by_cases hsub : i = j + 1
    · rw [if_neg (by omega : ¬ (i = n - 1 ∧ j = n - 1))]
      rw [if_pos (Or.inl hsub : i = j + 1 ∨ (i = n - 1 ∧ j = n - 1))]
      rw [if_neg (by omega : ¬ (i = 0 ∧ j = 0))]
      rw [if_neg (by omega : ¬ (j = i + 1 ∨ (i = 0 ∧ j = 0)))]
      rw [if_pos (Or.inl hsub : i = j + 1 ∨ j = i + 1)]
      ring
    · by_cases hsup : j = i + 1
      · rw [if_neg (by omega : ¬ (i = n - 1 ∧ j = n - 1))]
        rw [if_neg (by omega : ¬ (i = j + 1 ∨ (i = n - 1 ∧ j = n - 1)))]
        rw [if_neg (by omega : ¬ (i = 0 ∧ j = 0))]
        rw [if_pos (Or.inl hsup : j = i + 1 ∨ (i = 0 ∧ j = 0))]
        rw [if_pos (Or.inr hsup : i = j + 1 ∨ j = i + 1)]
        ring
      · rw [if_neg (by omega : ¬ (i = n - 1 ∧ j = n - 1))]
        rw [if_neg (by omega : ¬ (i = j + 1 ∨ (i = n - 1 ∧ j = n - 1)))]
        rw [if_neg (by omega : ¬ (i = 0 ∧ j = 0))]
        rw [if_neg (by omega : ¬ (j = i + 1 ∨ (i = 0 ∧ j = 0)))]
        rw [if_neg (by omega : ¬ (i = j + 1 ∨ j = i + 1))]
        ring


/-!
## Solver loop invariants (for C6, C7, C10)
-/

theorem btRun_omega_le (ctx : BiftCtx) (ite : ℕ) (Pold dP m : List ℚ) :
    ∀ (fuel : ℕ) (omega : ℚ) (P : List ℚ) (g : Grad),
      (btRun ctx ite Pold dP m fuel omega P g).1 ≤ omega := by
  intro fuel
  induction fuel with
  | zero => intro omega P g; exact le_refl _
  | succ n ih =>
    intro omega P g
    rw [btRun]
    by_cases h : btGuard ctx ite omega g
    · rw [if_pos h]
      have hpos : 1/1000 < omega := h.2.2.2
      have h2 : omega / 2 ≤ omega := by linarith
      exact le_trans (ih (omega / 2) _ _) h2
    · rw [if_neg h]

theorem btRun_omega_gt (ctx : BiftCtx) (ite : ℕ) (Pold dP m : List ℚ) :
    ∀ (fuel : ℕ) (omega : ℚ) (P : List ℚ) (g : Grad),
      1/2000 < omega → 1/2000 < (btRun ctx ite Pold dP m fuel omega P g).1 := by
  intro fuel
  induction fuel with
  | zero => intro omega P g h; exact h
  | succ n ih =>
    intro omega P g h
    rw [btRun]
    by_cases hg : btGuard ctx ite omega g
    · rw [if_pos hg]
      have hpos : 1/1000 < omega := hg.2.2.2
      exact ih (omega / 2) _ _ (by linarith)
    · rw [if_neg hg]
      exact h

theorem outerStep_omega_le (ctx : BiftCtx) (st : BiftState) :
    (outerStep ctx st).omega ≤ st.omega := by
  unfold outerStep
  exact btRun_omega_le ctx _ _ _ _ 12 st.omega _ _

theorem outerStep_omega_gt (ctx : BiftCtx) (st : BiftState)
    (h : 1/2000 < st.omega) : 1/2000 < (outerStep ctx st).omega := by
  unfold outerStep
  exact btRun_omega_gt ctx _ _ _ _ 12 st.omega _ _ h

theorem outerStep_ite (ctx : BiftCtx) (st : BiftState) :
    (outerStep ctx st).ite = st.ite + 1 := rfl

theorem loopGuard_ite_lt (st : BiftState) (h : loopGuard st) :
    st.ite < 1000 := by
  rcases h with ⟨h1, _, _⟩ | h2
  · exact h1
  · omega

theorem runOuter_not_guard (ctx : BiftCtx) :
    ∀ (fuel : ℕ) (st : BiftState), 1000 ≤ fuel + st.ite →
      ¬ loopGuard (runOuter ctx fuel st) := by
  intro fuel
  induction fuel with
  | zero =>
    intro st h hg
    simp only [runOuter] at hg
    have := loopGuard_ite_lt _ hg
    omega
  | succ n ih =>
    intro st h
    rw [runOuter]
    by_cases hg : loopGuard st
    · rw [if_pos hg]
      exact ih (outerStep ctx st) (by rw [outerStep_ite]; omega)
    · rw [if_neg hg]
      exact hg

theorem runOuter_ite_le (ctx : BiftCtx) :
    ∀ (fuel : ℕ) (st : BiftState), st.ite ≤ 1000 →
      (runOuter ctx fuel st).ite ≤ 1000 := by
  intro fuel
  induction fuel with
  | zero => intro st h; exact h
  | succ n ih =>
    intro st h
    rw [runOuter]
    by_cases hg : loopGuard st
    · rw [if_pos hg]
      have := loopGuard_ite_lt st hg
      exact ih (outerStep ctx st) (by rw [outerStep_ite]; omega)
    · rw [if_neg hg]
      exact h

theorem runOuter_stable_succ (ctx : BiftCtx) :
    ∀ (fuel : ℕ) (st : BiftState), 1000 ≤ fuel + st.ite →
      runOuter ctx (fuel + 1) st = runOuter ctx fuel st := by
  intro fuel
  induction fuel with
  | zero =>
    intro st h
    rw [runOuter, runOuter]
    rw [if_neg (fun hg => by have := loopGuard_ite_lt st hg; omega)]
  | succ n ih =>
    intro st h
    rw [runOuter]
    conv_rhs => rw [runOuter]
    by_cases hg : loopGuard st
    · rw [if_pos hg, if_pos hg]
      exact ih (outerStep ctx st) (by rw [outerStep_ite]; omega)
    · rw [if_neg hg, if_neg hg]

theorem runOuter_stable (ctx : BiftCtx) :
    ∀ (k fuel : ℕ) (st : BiftState), 1000 ≤ fuel + st.ite →
      runOuter ctx (fuel + k) st = runOuter ctx fuel st := by
  intro k
  induction k with
  | zero => intro fuel st _; rfl
  | succ n ih =>
    intro fuel st h
    have e : fuel + (n + 1) = (fuel + n) + 1 := by omega
    rw [e, runOuter_stable_succ ctx (fuel + n) st (by omega), ih fuel st h]

theorem omegaTrace_chain (ctx : BiftCtx) :
    ∀ (fuel : ℕ) (st : BiftState),
      List.Chain' (fun a b => b ≤ a) (st.omega :: omegaTrace ctx fuel st) := by
  intro fuel
  induction fuel with
  | zero =>
    intro st
    simp [omegaTrace]
  | succ n ih =>
    intro st
    rw [omegaTrace]
    by_cases hg : loopGuard st
    · rw [if_pos hg]
      exact List.chain'_cons.mpr
        ⟨outerStep_omega_le ctx st, ih (outerStep ctx st)⟩
    · rw [if_neg hg]
      simp

theorem omegaTrace_mem_bounds (ctx : BiftCtx) :
    ∀ (fuel : ℕ) (st : BiftState), 1/2000 < st.omega →
      ∀ w ∈ omegaTrace ctx fuel st, 1/2000 < w ∧ w ≤ st.omega := by
  intro fuel
  induction fuel with
  | zero =>
    intro st _ w hw
    simp [omegaTrace] at hw
  | succ n ih =>
    intro st h w hw
    rw [omegaTrace] at hw
    by_cases hg : loopGuard st
    · rw [if_pos hg] at hw
      rcases List.mem_cons.mp hw with h' | h'
      · subst h'
        exact ⟨outerStep_omega_gt ctx st h, outerStep_omega_le ctx st⟩
      · have hstep := outerStep_omega_gt ctx st h
        obtain ⟨hb1, hb2⟩ := ih (outerStep ctx st) hstep w h'
        exact ⟨hb1, le_trans hb2 (outerStep_omega_le ctx st)⟩
    · rw [if_neg hg] at hw
      simp at hw

/-!
## C7: loop termination and the exact stop condition
-/

/-- C7 (confirmed): the outer loop stops exactly when
`ite ≥ minit ∧ (ite ≥ maxit ∨ omega ≤ omega_min ∨ |1 − dotsp| ≤ dotsptol)`
(the negation of the `while` guard); the loop has stopped (guard false)
after at most `maxit = 1000` iterations — `bift` runs the loop with fuel
`1000` and any larger fuel gives the same state — and the final iteration
count never exceeds `1000`. -/
theorem C7_stop_condition (ctx : BiftCtx) (st : BiftState) (h0 : st.ite = 0) :
    (∀ s : BiftState, ¬ loopGuard s ↔
      (10 ≤ s.ite ∧ (1000 ≤ s.ite ∨ s.omega ≤ 1/1000 ∨
        |1 - s.dotsp| ≤ 1/1000))) ∧
    ¬ loopGuard (bift ctx st) ∧
    (bift ctx st).ite ≤ 1000 ∧
    (∀ fuel : ℕ, 1000 ≤ fuel → runOuter ctx fuel st = bift ctx st) := by
  refine ⟨?_, ?_, ?_, ?_⟩
  · intro s
    unfold loopGuard
    constructor
    · intro h
      push_neg at h
      obtain ⟨h1, h2⟩ := h
      refine ⟨by omega, ?_⟩
      by_cases hx : s.ite < 1000
      · rcases lt_or_le (1/1000 : ℚ) s.omega with ho | ho
        · exact Or.inr (Or.inr (h1 hx ho))
        · exact Or.inr (Or.inl ho)
      · exact Or.inl (by omega)
    · intro h hg
      obtain ⟨h1, h2⟩ := h
      rcases hg with ⟨g1, g2, g3⟩ | g4
      · rcases h2 with a | a | a
        · omega
        · exact absurd g2 (not_lt.mpr a)
        · exact absurd g3 (not_lt.mpr a)
      · omega
  · exact runOuter_not_guard ctx 1000 st (by omega)
  · exact runOuter_ite_le ctx 1000 st (by omega)
  · intro fuel hf
    obtain ⟨k, rfl⟩ : ∃ k, fuel = 1000 + k := ⟨fuel - 1000, by omega⟩
    exact runOuter_stable ctx k 1000 st (by omega)

/-- Witness for C7 at the concrete solver run `cexCtx`/`cexInit`. -/
theorem C7_stop_condition_witness :
    cexInit.ite = 0 ∧ ¬ loopGuard (bift cexCtx cexInit) :=
  ⟨rfl, (C7_stop_condition cexCtx cexInit rfl).2.1⟩

/-!
## C6 and C10: the range of the relaxation factor `omega`
-/

/-- C6 counterexample: in the concrete solver run on `cexCtx` (derived by
`C_seeksol` from `T = I₂`, `I_exp = 0`, `sigma = 1`, `alpha = 1`, prior
`(1,1)`), the backtracking loop halves `omega` nine times in the second
outer iteration — the last halving is allowed because the guard only checks
`omega > omega_min` *before* dividing — so from then on the per-iteration
`omega` equals `1/1024 < omega_min = 1/1000`, refuting
"always remains in `(omega_min, 1]`". -/
theorem C6_counterexample :
    cexInit.omega = 1/2 ∧
    omegaTrace cexCtx 1000 cexInit =
      [1/2, 1/1024, 1/1024, 1/1024, 1/1024, 1/1024, 1/1024, 1/1024,
        1/1024, 1/1024] ∧
    (1/1024 : ℚ) ∈ omegaTrace cexCtx 1000 cexInit ∧
    ¬ (1/1000 < (1/1024 : ℚ)) := by
  have ht : omegaTrace cexCtx 1000 cexInit =
      [1/2, 1/1024, 1/1024, 1/1024, 1/1024, 1/1024, 1/1024, 1/1024,
        1/1024, 1/1024] := by
    with_unfolding_all rfl
  refine ⟨rfl, ht, ?_, by norm_num⟩
  rw [ht]
  simp

/-- C6, as amended: over any run started with `omega = 0.5` (as `C_seeksol`
always does) the per-iteration `omega` is monotonically non-increasing and
stays in the half-open interval `(omega_min/2, 1/2] = (0.0005, 0.5]`; the
lower end `omega_min = 0.001` is not a barrier, since the backtracking
guard checks `omega > omega_min` only before the halving. -/
theorem C6_amended (ctx : BiftCtx) (st : BiftState) (h : st.omega = 1/2) :
    List.Chain' (fun a b => b ≤ a) (st.omega :: omegaTrace ctx 1000 st) ∧
    ∀ w ∈ omegaTrace ctx 1000 st, 1/2000 < w ∧ w ≤ 1/2 := by
  refine ⟨omegaTrace_chain ctx 1000 st, ?_⟩
  intro w hw
  have hb := omegaTrace_mem_bounds ctx 1000 st (by rw [h]; norm_num) w hw
  rw [h] at hb
  exact hb

/-- Witness for the amended C6 at the concrete run. -/
theorem C6_amended_witness :
    cexInit.omega = 1/2 ∧
    ∀ w ∈ omegaTrace cexCtx 1000 cexInit, 1/2000 < w ∧ w ≤ 1/2 :=
  ⟨rfl, (C6_amended cexCtx cexInit rfl).2⟩

/-- C10 (confirmed): `omega` is only ever reduced, by division by
`omegareduction = 2`, inside the backtracking loop whose guard requires
`omega > omega_min = 0.001` before each division; hence every
per-iteration `omega` of a run started at `0.5` stays strictly above
`omega_min/2 = 0.0005`, in particular strictly positive, so the relaxed
update `P = (1−omega)·P_old + omega·dP` never has a zero coefficient on
`dP`. -/
theorem C10_omega_positive (ctx : BiftCtx) (st : BiftState)
    (h : st.omega = 1/2) :
    ∀ w ∈ omegaTrace ctx 1000 st, 1/2000 < w ∧ 0 < w ∧ w ≠ 0 := by
  intro w hw
  have hb := omegaTrace_mem_bounds ctx 1000 st (by rw [h]; norm_num) w hw
  have hpos : 0 < w := lt_trans (by norm_num) hb.1
  exact ⟨hb.1, hpos, ne_of_gt hpos⟩

/-- Witness for C10 at the concrete run. -/
theorem C10_omega_positive_witness :
    cexInit.omega = 1/2 ∧
    ∀ w ∈ omegaTrace cexCtx 1000 cexInit, 1/2000 < w ∧ 0 < w ∧ w ≠ 0 :=
  ⟨rfl, C10_omega_positive cexCtx cexInit rfl⟩

/-!
## C2: the chi-squared value returned by `C_seeksol`
-/

theorem sumR_congr (n : ℕ) (f g : ℕ → ℚ) (h : ∀ i, i < n → f i = g i) :
    sumR n f = sumR n g := by
  induction n with
  | zero => rfl
  | succ m ih =>
    rw [sumR, sumR, ih (fun i hi => h i (by omega)), h m (by omega)]

/-- C2, as amended: the third return value of `C_seeksol` — reported as
`chi` in progress records and `ChiSquared` in the artifact metadata — is the
full sum `Σ_i ((I_exp_i − I_model_i)/sigma_i)²` *divided by the number `M`
of windowed points* (`c / I_exp.size`, line 294), not the full sum itself. -/
theorem C2_amended (sqrtA logA : ℚ → ℚ) (M N : ℕ) (I_exp sigma : ℕ → ℚ)
    (m : List ℚ) (alpha dmax : ℚ) (T : ℕ → ℕ → ℚ) :
    (C_seeksol sqrtA logA M N I_exp sigma m alpha dmax T).2.2 =
      sumR M (fun i => ((I_exp i -
        modelI N T (C_seeksol sqrtA logA M N I_exp sigma m alpha dmax T).1 i)
        / sigma i) ^ 2) / M := by
  unfold C_seeksol
  dsimp only
  congr 1
  refine sumR_congr M _ _ (fun i _ => ?_)
  rw [div_pow]

/-- C2 counterexample: on the concrete run `cexSeeksol` (two windowed
points, `I_exp = 0`, `sigma = 1`, `T = I₂`), the full chi-squared sum is
`2·(4093/4096)^18` but the value returned (and reported) is
`(4093/4096)^18`: the mean over the `M = 2` points, not the sum. -/
theorem C2_counterexample :
    cexSeeksol.2.2 = (4093/4096 : ℚ) ^ 18 ∧
    sumR 2 (fun i => (((fun _ => (0 : ℚ)) i -
      modelI 2 cexT cexSeeksol.1 i) / (fun _ => (1 : ℚ)) i) ^ 2)
      = 2 * (4093/4096 : ℚ) ^ 18 ∧
    cexSeeksol.2.2 ≠ sumR 2 (fun i => (((fun _ => (0 : ℚ)) i -
      modelI 2 cexT cexSeeksol.1 i) / (fun _ => (1 : ℚ)) i) ^ 2) := by
  have h1 : cexSeeksol.2.2 = (4093/4096 : ℚ) ^ 18 := by
    with_unfolding_all rfl
  have h2 : sumR 2 (fun i => (((fun _ => (0 : ℚ)) i -
      modelI 2 cexT cexSeeksol.1 i) / (fun _ => (1 : ℚ)) i) ^ 2)
      = 2 * (4093/4096 : ℚ) ^ 18 := by
    with_unfolding_all rfl
  refine ⟨h1, h2, ?_⟩
  rw [h1, h2]
  have hx : (0 : ℚ) < (4093/4096 : ℚ) ^ 18 := by positivity
  intro he
  linarith

/-!
## Solver output length and the assembled artifact (for C5, C9)
-/

theorem getD_map (f : ℚ → ℚ) (l : List ℚ) (n : ℕ) (h : n < l.length) :
    (l.map f).getD n 0 = f (l.getD n 0) := by
  have hm : n < (l.map f).length := by rw [List.length_map]; exact h
  rw [List.getD_eq_getElem _ _ hm, List.getElem_map,
    ← List.getD_eq_getElem _ _ h]

theorem btRun_P_length (ctx : BiftCtx) (ite : ℕ) (Pold dP m : List ℚ) :
    ∀ (fuel : ℕ) (omega : ℚ) (P : List ℚ) (g : Grad), P.length = ctx.N →
      (btRun ctx ite Pold dP m fuel omega P g).2.1.length = ctx.N := by
  intro fuel
  induction fuel with
  | zero => intro omega P g h; exact h
  | succ n ih =>
    intro omega P g h
    rw [btRun]
    by_cases hg : btGuard ctx ite omega g
    · rw [if_pos hg]
      exact ih _ _ _ (by rw [List.length_map, List.length_range])
    · rw [if_neg hg]
      exact h

theorem outerStep_P_length (ctx : BiftCtx) (st : BiftState)
    (h : st.P.length = ctx.N) : (outerStep ctx st).P.length = ctx.N := by
  unfold outerStep
  dsimp only
  by_cases hi : st.ite ≠ 0
  · rw [if_pos hi]
    exact btRun_P_length ctx _ _ _ _ 12 st.omega _ _
      (by rw [List.length_map, List.length_range])
  · rw [if_neg hi]
    exact btRun_P_length ctx _ _ _ _ 12 st.omega _ _ h

theorem runOuter_P_length (ctx : BiftCtx) :
    ∀ (fuel : ℕ) (st : BiftState), st.P.length = ctx.N →
      (runOuter ctx fuel st).P.length = ctx.N := by
  intro fuel
  induction fuel with
  | zero => intro st h; exact h
  | succ n ih =>
    intro st h
    rw [runOuter]
    by_cases hg : loopGuard st
    · rw [if_pos hg]
      exact ih _ (outerStep_P_length ctx st h)
    · rw [if_neg hg]
      exact h

theorem distDistribution_Sphere_length (N : ℕ) (scale dmax : ℚ) :
    (distDistribution_Sphere N scale dmax).1.length = N := by
  unfold distDistribution_Sphere sphereFloored spherePraw
  simp only [List.length_map, linspace_length]

theorem C_seeksol_P_length (sqrtA logA : ℚ → ℚ) (M N : ℕ)
    (I_exp sigma : ℕ → ℚ) (m : List ℚ) (alpha dmax : ℚ) (T : ℕ → ℕ → ℚ)
    (h : m.length = N) :
    (C_seeksol sqrtA logA M N I_exp sigma m alpha dmax T).1.length = N := by
  unfold C_seeksol bift
  dsimp only
  exact runOuter_P_length _ 1000 _ h

theorem linspace_strict_chain (a b : ℚ) (n : ℕ) (h : 0 < b - a) :
    List.Chain' (· < ·) (linspace a b n) := by
  unfold linspace
  rw [List.chain'_map]
  cases n with
  | zero => simp
  | succ m =>
    rw [List.chain'_range_succ]
    intro k hk
    have hm1 : (0 : ℚ) < ((m + 1 : ℕ) : ℚ) - 1 := by
      have h1 : (1 : ℚ) ≤ (m : ℚ) := by exact_mod_cast Nat.one_le_iff_ne_zero.mpr (by omega)
      push_cast
      linarith
    apply add_lt_add_left
    apply div_lt_div_of_pos_right _ hm1
    have : ((k : ℚ)) < ((k + 1 : ℕ) : ℚ) := by push_cast; linarith
    nlinarith

/-- The invariants of every artifact built by the assembly block shared by
`SingleSolve` and `doBift`: `p` has length `|Pr| + 2` and is pinned to `0`
at both ends exactly; `r` has the same length as `p`, starts at `0`, ends
at `dmaxfin`, and is strictly increasing whenever `dmaxfin > 0`; `fit` is
stored unchanged. -/
theorem assembleIFT_invariants (piA : ℚ) (sqrtA : ℚ → ℚ) (Pr Fit : List ℚ)
    (dmaxfin alphafin chi post : ℚ) (iw qw errw : List ℚ)
    (hd : 0 < dmaxfin) :
    (assembleIFT piA sqrtA Pr Fit dmaxfin alphafin chi post iw qw errw).p.length
        = Pr.length + 2 ∧
    (assembleIFT piA sqrtA Pr Fit dmaxfin alphafin chi post iw qw errw).p.getD 0 0
        = 0 ∧
    (assembleIFT piA sqrtA Pr Fit dmaxfin alphafin chi post iw qw
        errw).p.getD (Pr.length + 1) 0 = 0 ∧
    (assembleIFT piA sqrtA Pr Fit dmaxfin alphafin chi post iw qw errw).r.length
        = (assembleIFT piA sqrtA Pr Fit dmaxfin alphafin chi post iw qw
            errw).p.length ∧
    List.Chain' (· < ·)
      (assembleIFT piA sqrtA Pr Fit dmaxfin alphafin chi post iw qw errw).r ∧
    (assembleIFT piA sqrtA Pr Fit dmaxfin alphafin chi post iw qw errw).r.getD 0 0
        = 0 ∧
    (assembleIFT piA sqrtA Pr Fit dmaxfin alphafin chi post iw qw
        errw).r.getD (Pr.length + 1) 0 = dmaxfin ∧
    (assembleIFT piA sqrtA Pr Fit dmaxfin alphafin chi post iw qw errw).fit
        = Fit := by
  unfold assembleIFT
  dsimp only
  have hlen0 : ((0 : ℚ) :: Pr ++ [0]).length = Pr.length + 2 := by
    simp
  refine ⟨?_, ?_, ?_, ?_, ?_, ?_, ?_, rfl⟩
  · rw [List.length_map, hlen0]
  · rw [getD_map _ _ 0 (by rw [hlen0]; omega)]
    simp
  · rw [getD_map _ _ (Pr.length + 1) (by rw [hlen0]; omega)]
    rw [show ((0 : ℚ) :: Pr ++ [0]) = ((0 : ℚ) :: Pr) ++ [0] from rfl]
    rw [List.getD_append_right ((0 : ℚ) :: Pr) [0] 0 (Pr.length + 1)
      (by simp)]
    simp
  · rw [List.length_map, hlen0, linspace_length]
  · exact linspace_strict_chain 0 dmaxfin (Pr.length + 2) (by linarith)
  · rw [linspace_getD 0 dmaxfin (Pr.length + 2) 0 (by omega)]
    norm_num
  · rw [linspace_getD 0 dmaxfin (Pr.length + 2) (Pr.length + 1) (by omega)]
    have hne : ((Pr.length + 2 : ℕ) : ℚ) - 1 ≠ 0 := by
      push_cast
      have : (0 : ℚ) ≤ (Pr.length : ℚ) := Nat.cast_nonneg _
      intro hc
      nlinarith
    rw [zero_add, sub_zero]
    rw [div_eq_iff hne]
    push_cast
    ring

/-!
## C5: no precondition validation at the entry points
-/

/-- C5 counterexample: `SingleSolve` called with `N = 3 < 4` — an input the
claim says must be rejected with a precondition failure — instead proceeds
through the prior, the transform matrix, the inner solver and the assembler,
and returns an ordinary artifact with `len(p) = len(r) = 5` and
`fit` of the windowed length `1`.  No rejection path exists. -/
theorem C5_counterexample :
    cexSingle.p.length = 5 ∧
    cexSingle.p.getD 0 0 = 0 ∧
    cexSingle.p.getD 4 0 = 0 ∧
    cexSingle.r = [0, 1/2, 1, 3/2, 2] ∧
    cexSingle.fit.length = 1 := by
  refine ⟨?_, ?_, ?_, ?_, ?_⟩ <;> with_unfolding_all rfl

/-- C5, as amended: neither `doBift` nor `SingleSolve` performs any input
validation — there is no precondition check and no failure outcome distinct
from the `failed`/`canceled` records.  For *every* parameter combination
(including invalid q-ranges, non-positive `sigma`, `N < 4`, `alpha ≤ 0`,
`D_max ≤ 0`), `SingleSolve` proceeds into the numerical core and returns an
ordinary `IFTM` artifact with `len(p) = N + 2` and `len(fit)` equal to the
windowed q length. -/
theorem C5_amended (sinA sqrtA logA : ℚ → ℚ) (piA alpha dmax : ℚ)
    (Ep : Measurement) (N : ℕ) :
    (SingleSolve sinA sqrtA logA piA alpha dmax Ep N).p.length = N + 2 ∧
    (SingleSolve sinA sqrtA logA piA alpha dmax Ep N).fit.length =
      (pySlice Ep.q Ep.qmin Ep.qmax).length := by
  unfold SingleSolve
  dsimp only
  have hP : (C_seeksol sqrtA logA (pySlice Ep.q Ep.qmin Ep.qmax).length N
      (fun k => (pySlice Ep.i Ep.qmin Ep.qmax).getD k 0)
      (fun k => (pySlice Ep.err Ep.qmin Ep.qmax).getD k 0)
      (makePriorDistDistribution Ep.i N dmax) alpha dmax
      (createTransMatrix sinA (pySlice Ep.q Ep.qmin Ep.qmax)
        (linspace 0 dmax N))).1.length = N := by
    apply C_seeksol_P_length
    unfold makePriorDistDistribution
    exact distDistribution_Sphere_length N _ dmax
  constructor
  · unfold assembleIFT
    dsimp only
    rw [List.length_map]
    simp only [List.length_cons, List.length_append, List.length_nil, hP]
  · unfold assembleIFT
    dsimp only
    rw [List.length_map, List.length_range]

/-!
## C9: invariants of the assembled IFT artifact
-/

/-- C9 (confirmed): every artifact assembled by `SingleSolve`, and every
artifact returned by `doBift`, from an `N`-point solve with `D_max > 0`
satisfies: `p` has length `N + 2` with `p[0] = p[N+1] = 0` exactly,
`len(r) = len(p)`, `r` strictly increasing from `0` to `D_max` (stored in
the artifact as `info_dmax`), and `len(fit)` equals the windowed q
length. -/
theorem C9_artifact_invariants (sinA sqrtA logA expA : ℚ → ℚ)
    (piA alpha dmax : ℚ) (Ep : Measurement) (N : ℕ) (hd : 0 < dmax)
    (fineSearchA : ℚ → ℚ → Option (ℚ × ℚ)) (cancel : ℕ → Bool)
    (alphamax alphamin : ℚ) (alphaN : ℕ) (maxDmax minDmax : ℚ) (dmaxN : ℕ)
    (art2 : IFTM)
    (hart2 : (doBift sinA sqrtA logA expA piA fineSearchA cancel Ep N
        alphamax alphamin alphaN maxDmax minDmax dmaxN).2 = some art2)
    (hd2 : 0 < art2.info_dmax) :
    ((SingleSolve sinA sqrtA logA piA alpha dmax Ep N).p.length = N + 2 ∧
      (SingleSolve sinA sqrtA logA piA alpha dmax Ep N).p.getD 0 0 = 0 ∧
      (SingleSolve sinA sqrtA logA piA alpha dmax Ep N).p.getD (N + 1) 0 = 0 ∧
      (SingleSolve sinA sqrtA logA piA alpha dmax Ep N).r.length =
        (SingleSolve sinA sqrtA logA piA alpha dmax Ep N).p.length ∧
      List.Chain' (· < ·) (SingleSolve sinA sqrtA logA piA alpha dmax Ep N).r ∧
      (SingleSolve sinA sqrtA logA piA alpha dmax Ep N).r.getD 0 0 = 0 ∧
      (SingleSolve sinA sqrtA logA piA alpha dmax Ep N).r.getD (N + 1) 0 =
        dmax ∧
      (SingleSolve sinA sqrtA logA piA alpha dmax Ep N).fit.length =
        (pySlice Ep.q Ep.qmin Ep.qmax).length) ∧
    (art2.p.length = N + 2 ∧
      art2.p.getD 0 0 = 0 ∧
      art2.p.getD (N + 1) 0 = 0 ∧
      art2.r.length = art2.p.length ∧
      List.Chain' (· < ·) art2.r ∧
      art2.r.getD 0 0 = 0 ∧
      art2.r.getD (N + 1) 0 = art2.info_dmax ∧
      art2.fit.length = (pySlice Ep.q Ep.qmin Ep.qmax).length) := by
  constructor
  · unfold SingleSolve
    dsimp only
    have hP : (C_seeksol sqrtA logA (pySlice Ep.q Ep.qmin Ep.qmax).length N
        (fun k => (pySlice Ep.i Ep.qmin Ep.qmax).getD k 0)
        (fun k => (pySlice Ep.err Ep.qmin Ep.qmax).getD k 0)
        (makePriorDistDistribution Ep.i N dmax) alpha dmax
        (createTransMatrix sinA (pySlice Ep.q Ep.qmin Ep.qmax)
          (linspace 0 dmax N))).1.length = N := by
      apply C_seeksol_P_length
      unfold makePriorDistDistribution
      exact distDistribution_Sphere_length N _ dmax
    obtain ⟨a1, a2, a3, a4, a5, a6, a7, a8⟩ :=
      assembleIFT_invariants piA sqrtA _ _ dmax alpha _ _ _ _ _ hd
    rw [hP] at a1 a3 a7
    refine ⟨a1, a2, a3, a4, a5, a6, a7, ?_⟩
    rw [a8, List.length_map, List.length_range]
  · unfold doBift at hart2
    dsimp only at hart2
    split at hart2
    · simp at hart2
    · split at hart2
      · simp at hart2
      · split at hart2
        · simp at hart2
        · rename_i fin hfin
          simp only [Option.some.injEq] at hart2
          subst hart2
          have hP : (C_seeksol sqrtA logA
              (pySlice Ep.q Ep.qmin Ep.qmax).length N
              (fun k => (pySlice Ep.i Ep.qmin Ep.qmax).getD k 0)
              (fun k => (pySlice Ep.err Ep.qmin Ep.qmax).getD k 0)
              (makePriorDistDistribution Ep.i N fin.2) fin.1 fin.2
              (createTransMatrix sinA (pySlice Ep.q Ep.qmin Ep.qmax)
                (linspace 0 fin.2 N))).1.length = N := by
            apply C_seeksol_P_length
            unfold makePriorDistDistribution
            exact distDistribution_Sphere_length N _ fin.2
          have hdfin : 0 < fin.2 := hd2
          obtain ⟨a1, a2, a3, a4, a5, a6, a7, a8⟩ :=
            assembleIFT_invariants piA sqrtA _ _ fin.2 fin.1 _ _ _ _ _ hdfin
          rw [hP] at a1 a3 a7
          refine ⟨a1, a2, a3, a4, a5, a6, a7, ?_⟩
          rw [a8, List.length_map, List.length_range]

set_option maxRecDepth 100000 in
/-- Witness for C9 at the concrete runs `cexSingle` and `cexDoBift`. -/
theorem C9_artifact_invariants_witness :
    (0 : ℚ) < 2 ∧ cexDoBift.2 = some cexDoBiftArt ∧
    0 < cexDoBiftArt.info_dmax ∧
    cexSingle.p.length = 3 + 2 ∧ cexDoBiftArt.p.length = 3 + 2 := by
  have h1 : cexDoBift.2 = some cexDoBiftArt := by
    with_unfolding_all rfl
  have h2 : cexDoBiftArt.info_dmax = 2 := by
    with_unfolding_all rfl
  have h3 : (0 : ℚ) < 2 := by norm_num
  have main := C9_artifact_invariants (fun _ => 0) (fun _ => 1) (fun _ => 0)
    (fun _ => 1) 1 1 2 cexEp 3 h3 (fun _ _ => some (1, 2)) (fun _ => false)
    1 1 1 2 2 1 cexDoBiftArt h1 (by rw [h2]; norm_num)
  exact ⟨h3, h1, by rw [h2]; norm_num, main.1.1, main.2.1⟩

/-!
## C8: cancellation of the grid search
-/

theorem numUpdates_append_update (l : List QRec) (a e c d : ℚ) (sp tp : ℕ) :
    numUpdates (l ++ [QRec.update a e c d sp tp]) = numUpdates l + 1 := by
  simp [numUpdates, List.filter_append, QRec.isUpdate]

theorem numUpdates_append_canceled (l : List QRec) :
    numUpdates (l ++ [QRec.canceled]) = numUpdates l := by
  simp [numUpdates, List.filter_append, QRec.isUpdate]

theorem numCanceled_append_update (l : List QRec) (a e c d : ℚ) (sp tp : ℕ) :
    numCanceled (l ++ [QRec.update a e c d sp tp]) = numCanceled l := by
  simp [numCanceled, List.filter_append, QRec.isCanceled]

theorem numCanceled_append_canceled (l : List QRec) :
    numCanceled (l ++ [QRec.canceled]) = numCanceled l + 1 := by
  simp [numCanceled, List.filter_append, QRec.isCanceled]

theorem gridInner_no_cancel (expA : ℚ → ℚ) (cancel : ℕ → Bool)
    (evalC : ℚ → ℚ → ℚ × ℚ) (total : ℕ) (d : ℚ) :
    ∀ (alphas : List ℚ) (st : GridState),
      (∀ t, t < alphas.length → cancel (st.cp + t) = false) →
      (gridInner expA cancel evalC total d alphas st).2 = false ∧
      (gridInner expA cancel evalC total d alphas st).1.cp
        = st.cp + alphas.length ∧
      numUpdates (gridInner expA cancel evalC total d alphas st).1.recs
        = numUpdates st.recs + alphas.length ∧
      numCanceled (gridInner expA cancel evalC total d alphas st).1.recs
        = numCanceled st.recs := by
  intro alphas
  induction alphas with
  | nil =>
    intro st h
    exact ⟨rfl, rfl, rfl, rfl⟩
  | cons a rest ih =>
    intro st h
    have h0 : ¬ (cancel st.cp = true) := by
      have := h 0 (by simp)
      simp at this
      simp [this]
    rw [gridInner, if_neg h0]
    dsimp only
    obtain ⟨i1, i2, i3, i4⟩ := ih
      { finalpost := if (evalC a d).1 < st.finalpost then (evalC a d).1
          else st.finalpost
        bestc := if (evalC a d).2 < st.bestc then (evalC a d).2 else st.bestc
        alphafin := if (evalC a d).1 < st.finalpost then expA a
          else st.alphafin
        dmaxfin := if (evalC a d).1 < st.finalpost then d else st.dmaxfin
        cp := st.cp + 1
        posts := st.posts ++ [(evalC a d).1]
        recs := st.recs ++
          [QRec.update a (evalC a d).1 (evalC a d).2 d st.cp total] }
      (by
        intro t ht
        have := h (t + 1) (by simpa using Nat.succ_lt_succ ht)
        rwa [show st.cp + (t + 1) = st.cp + 1 + t by omega] at this)
    refine ⟨i1, ?_, ?_, ?_⟩
    · rw [i2]
      dsimp only
      rw [List.length_cons]
      omega
    · rw [i3]
      dsimp only
      rw [numUpdates_append_update, List.length_cons]
      omega
    · rw [i4]
      dsimp only
      rw [numCanceled_append_update]

theorem gridInner_cancel_at (expA : ℚ → ℚ) (cancel : ℕ → Bool)
    (evalC : ℚ → ℚ → ℚ × ℚ) (total : ℕ) (d : ℚ) :
    ∀ (alphas : List ℚ) (st : GridState) (t : ℕ), t < alphas.length →
      (∀ u, u < t → cancel (st.cp + u) = false) →
      cancel (st.cp + t) = true →
      (gridInner expA cancel evalC total d alphas st).2 = true ∧
      numUpdates (gridInner expA cancel evalC total d alphas st).1.recs
        = numUpdates st.recs + t ∧
      numCanceled (gridInner expA cancel evalC total d alphas st).1.recs
        = numCanceled st.recs + 1 ∧
      (gridInner expA cancel evalC total d alphas st).1.recs.getLast?
        = some QRec.canceled := by
  intro alphas
  induction alphas with
  | nil =>
    intro st t ht
    simp at ht
  | cons a rest ih =>
    intro st t ht hu hset
    match t with
    | 0 =>
      have h0 : cancel st.cp = true := by simpa using hset
      rw [gridInner, if_pos h0]
      refine ⟨rfl, ?_, ?_, ?_⟩
      · dsimp only
        rw [numUpdates_append_canceled]
        omega
      · dsimp only
        rw [numCanceled_append_canceled]
      · dsimp only
        exact List.getLast?_concat _
    | t1 + 1 =>
      have h0 : ¬ (cancel st.cp = true) := by
        have := hu 0 (by omega)
        simp at this
        simp [this]
      rw [gridInner, if_neg h0]
      dsimp only
      obtain ⟨i1, i2, i3, i4⟩ := ih
        { finalpost := if (evalC a d).1 < st.finalpost then (evalC a d).1
            else st.finalpost
          bestc := if (evalC a d).2 < st.bestc then (evalC a d).2
            else st.bestc
          alphafin := if (evalC a d).1 < st.finalpost then expA a
            else st.alphafin
          dmaxfin := if (evalC a d).1 < st.finalpost then d else st.dmaxfin
          cp := st.cp + 1
          posts := st.posts ++ [(evalC a d).1]
          recs := st.recs ++
            [QRec.update a (evalC a d).1 (evalC a d).2 d st.cp total] }
        t1 (by simpa using Nat.lt_of_succ_lt_succ ht)
        (by
          intro u hu1
          have := hu (u + 1) (by omega)
          rwa [show st.cp + (u + 1) = st.cp + 1 + u by omega] at this)
        (by
          rwa [show st.cp + 1 + t1 = st.cp + (t1 + 1) by omega])
      refine ⟨i1, ?_, ?_, i4⟩
      · rw [i2]
        dsimp only
        rw [numUpdates_append_update]
        omega
      · rw [i3]
        dsimp only
        rw [numCanceled_append_update]

theorem gridOuter_cancel_at (expA : ℚ → ℚ) (cancel : ℕ → Bool)
    (evalC : ℚ → ℚ → ℚ × ℚ) (total : ℕ) (alphas : List ℚ) :
    ∀ (dmaxs : List ℚ) (st : GridState) (k : ℕ),
      k < dmaxs.length * alphas.length →
      (∀ u, u < k → cancel (st.cp + u) = false) →
      cancel (st.cp + k) = true →
      (gridOuter expA cancel evalC total alphas dmaxs st).2 = true ∧
      numUpdates (gridOuter expA cancel evalC total alphas dmaxs st).1.recs
        = numUpdates st.recs + k ∧
      numCanceled (gridOuter expA cancel evalC total alphas dmaxs st).1.recs
        = numCanceled st.recs + 1 ∧
      (gridOuter expA cancel evalC total alphas dmaxs st).1.recs.getLast?
        = some QRec.canceled := by
  intro dmaxs
  induction dmaxs with
  | nil =>
    intro st k hk
    simp at hk
  | cons dm rest ih =>
    intro st k hk hu hset
    rw [gridOuter]
    by_cases hcase : k < alphas.length
    · obtain ⟨c1, c2, c3, c4⟩ :=
        gridInner_cancel_at expA cancel evalC total dm alphas st k hcase hu
          hset
      rw [c1]
      rw [if_pos rfl]
      exact ⟨c1, c2, c3, c4⟩
    · have hlen : alphas.length ≤ k := by omega
      obtain ⟨n1, n2, n3, n4⟩ :=
        gridInner_no_cancel expA cancel evalC total dm alphas st
          (fun t ht => hu t (by omega))
      rw [n1]
      rw [if_neg (by simp)]
      have e : (rest.length + 1) * alphas.length
          = rest.length * alphas.length + alphas.length := by ring
      rw [List.length_cons] at hk
      obtain ⟨h1, h2, h3, h4⟩ := ih (gridInner expA cancel evalC total dm
          alphas st).1 (k - alphas.length)
        (by
          generalize hR : rest.length * alphas.length = R at e
          generalize hS : (rest.length + 1) * alphas.length = S at e hk
          omega)
        (by
          intro u hu1
          rw [n2, Nat.add_assoc]
          exact hu (alphas.length + u) (by omega))
        (by
          rw [n2, Nat.add_assoc,
            show alphas.length + (k - alphas.length) = k by omega]
          exact hset)
      refine ⟨h1, ?_, ?_, h4⟩
      · rw [h2, n3]
        omega
      · rw [h3, n4]

/-- C8 (confirmed): if the cancellation flag is observed set for the first
time at grid cell `k` (reads happen once per cell, in traversal order,
before the cell is evaluated), then `doBift` emits exactly the `k` update
records of the already-evaluated cells followed by exactly one `canceled`
record — no update record for any cell `≥ k` — and returns no artifact.
With the flag set before the search starts (`k = 0`) this gives one
`canceled` record and zero update records. -/
theorem C8_cancellation (sinA sqrtA logA expA : ℚ → ℚ) (piA : ℚ)
    (fineSearchA : ℚ → ℚ → Option (ℚ × ℚ)) (cancel : ℕ → Bool)
    (Ep : Measurement) (N : ℕ) (alphamax alphamin : ℚ) (alphaN : ℕ)
    (maxDmax minDmax : ℚ) (dmaxN : ℕ) (k : ℕ)
    (hk : k < dmaxN * alphaN)
    (hset : cancel k = true)
    (hfirst : ∀ j, j < k → cancel j = false) :
    numUpdates (doBift sinA sqrtA logA expA piA fineSearchA cancel Ep N
        alphamax alphamin alphaN maxDmax minDmax dmaxN).1 = k ∧
    numCanceled (doBift sinA sqrtA logA expA piA fineSearchA cancel Ep N
        alphamax alphamin alphaN maxDmax minDmax dmaxN).1 = 1 ∧
    (doBift sinA sqrtA logA expA piA fineSearchA cancel Ep N
        alphamax alphamin alphaN maxDmax minDmax dmaxN).1.getLast?
      = some QRec.canceled ∧
    (doBift sinA sqrtA logA expA piA fineSearchA cancel Ep N
        alphamax alphamin alphaN maxDmax minDmax dmaxN).2 = none := by
  have hk' : k < (linspace minDmax maxDmax dmaxN).length *
      (linspace (logA alphamin) (logA alphamax) alphaN).length := by
    rw [linspace_length, linspace_length]
    exact hk
  obtain ⟨c1, c2, c3, c4⟩ := gridOuter_cancel_at expA cancel
    (fun a d => ((GetEvidence sinA sqrtA logA expA a d Ep N).1,
      (GetEvidence sinA sqrtA logA expA a d Ep N).2.1))
    ((linspace minDmax maxDmax dmaxN).length *
      (linspace (logA alphamin) (logA alphamax) alphaN).length)
    (linspace (logA alphamin) (logA alphamax) alphaN)
    (linspace minDmax maxDmax dmaxN)
    { finalpost := 1e20, bestc := 1e22, alphafin := -1, dmaxfin := -1
      cp := 0, posts := [], recs := [] }
    k hk'
    (by intro u hu1; simpa using hfirst u hu1)
    (by simpa using hset)
  unfold doBift
  dsimp only
  rw [c1, if_pos rfl]
  refine ⟨?_, ?_, c4, rfl⟩
  · rw [c2]
    simp [numUpdates]
  · rw [c3]
    simp [numCanceled]

/-- Witness for C8: the flag set before the search starts (`k = 0`) on a
1×1 grid yields zero update records, one `canceled` record, and no
artifact. -/
theorem C8_cancellation_witness :
    (0 < 1 * 1 ∧ (fun _ : ℕ => true) 0 = true) ∧
    numUpdates (doBift (fun _ => 0) (fun _ => 1) (fun _ => 0) (fun _ => 1) 1
      (fun _ _ => none) (fun _ => true) cexEp 3 1 1 1 2 2 1).1 = 0 ∧
    (doBift (fun _ => 0) (fun _ => 1) (fun _ => 0) (fun _ => 1) 1
      (fun _ _ => none) (fun _ => true) cexEp 3 1 1 1 2 2 1).2 = none := by
  have main := C8_cancellation (fun _ => 0) (fun _ => 1) (fun _ => 0)
    (fun _ => 1) 1 (fun _ _ => none) (fun _ => true) cexEp 3 1 1 1 2 2 1 0
    (by norm_num) rfl (fun j hj => absurd hj (by omega))
  exact ⟨⟨by norm_num, rfl⟩, main.1, main.2.2.2⟩

/-- Witness for the amended C3 at `N = 3`, entry `(0, 1)`. -/
theorem C3_amended_witness :
    ((2 : ℕ) ≤ 3 ∧ (0 : ℕ) < 3 ∧ (1 : ℕ) < 3) ∧
    calcA 3 0 1 = (if (0 : ℕ) = 1 then (1 : ℚ)
      else if 0 = 1 + 1 ∨ 1 = 0 + 1 then -(1/2) else 0) :=
  ⟨⟨by omega, by omega, by omega⟩,
    C3_amended 3 (by omega) 0 1 (by omega) (by omega)⟩

/-- Witness for the amended C4 at `N = 3`, `scale_factor = 1`,
`D_max = 2`. -/
theorem C4_amended_witness :
    ((3 : ℕ) ≤ 3 ∧ (0 : ℚ) < 1 ∧ (0 : ℚ) < 2) ∧
    (distDistribution_Sphere 3 1 2).1.sum = (spherePraw 3 1 2).sum :=
  ⟨⟨by omega, by norm_num, by norm_num⟩,
    (C4_amended 3 1 2 (by omega) (by norm_num) (by norm_num)).1⟩

end BIFT
